import Mathlib

/- Verification of the cyberrank benchmark kernel collection (src/cuda/rank.cu).

   Modelling conventions:
   * uint64/uint32 quantities (stakes, counts, indices) are ℕ.
   * double values flowing through the rank/weight/karma pipeline are exact
     rationals ℚ (the real-arithmetic reading of the floating-point code).
   * the entropy kernel applies log2 and can hit the IEEE special values, so it
     is modelled over an IEEE-754-style value type Fp with an ℝ payload that
     keeps NaN and the two infinities explicit.
   * flat device arrays are Lists; out-of-range reads use List.getD, mirroring
     the in-range accesses the caller's preconditions guarantee.
   * each CUDA kernel is a map over List.range cidsSize of the per-thread body;
     per-cid slices of the flat link arrays are contiguous because the start
     indexes are the exclusive prefix sums computed by getLinksStartIndex. -/

namespace CyberRank

/-- A compressed inbound link (struct CompressedInLink from types.h): source
    cid index and aggregated weight. -/
structure CompressedInLink where
  fromIndex : ℕ
  weight : ℚ
deriving DecidableEq, Repr

/-- The contiguous slice flat[start .. start+count) traversed by a kernel's
    inner loop. -/
def sliceOf (flat : List α) (start count : ℕ) : List α :=
  (flat.drop start).take count

/-- Loop body of getLinksStartIndex (rank.cu, getLinksStartIndex): running
    index accumulates the counts; each cid records the index before its own
    count is added. Returns the start-index list and the final total. -/
def getLinksStartIndexGo (index : ℕ) : List ℕ → List ℕ × ℕ
  | [] => ([], index)
  | c :: cs =>
    let r := getLinksStartIndexGo (index + c) cs
    (index :: r.1, r.2)

/-- HOST getLinksStartIndex (rank.cu line 379): exclusive prefix sums of the
    per-cid link counts, plus the total number of links. -/
def getLinksStartIndex (linksCount : List ℕ) : List ℕ × ℕ :=
  getLinksStartIndexGo 0 linksCount

/-- KERNEL calculateCidTotalOutStake (rank.cu line 83): for each cid, the sum
    of the stakes of the authors of the links in its slice. The same kernel is
    launched once with the outbound view and once with the inbound view. -/
def calculateCidTotalOutStake (cidsSize : ℕ) (stakes : List ℕ)
    (linksStartIndex linksCount linksUsers : List ℕ) : List ℕ :=
  (List.range cidsSize).map (fun i =>
    ((sliceOf linksUsers (linksStartIndex.getD i 0) (linksCount.getD i 0)).map
      (fun u => stakes.getD u 0)).sum)

/-- KERNEL calculateCyberlinksLocalWeights (rank.cu line 115): per outbound
    link weight stake[user]/oil where oil = totalOut + totalIn of the source
    cid. The kernel writes w[j] for j in the cid's slice; since the start
    indexes are the exclusive prefix sums of the counts, the written flat
    array is the concatenation of the per-cid weight lists. -/
def calculateCyberlinksLocalWeights (cidsSize : ℕ) (stakes : List ℕ)
    (outLinksStartIndex outLinksCount outLinksUsers : List ℕ)
    (cidsTotalOutStakes cidsTotalInStakes : List ℕ) : List ℚ :=
  ((List.range cidsSize).map (fun i =>
    (sliceOf outLinksUsers (outLinksStartIndex.getD i 0) (outLinksCount.getD i 0)).map
      (fun u => (stakes.getD u 0 : ℚ) /
        ((cidsTotalOutStakes.getD i 0 + cidsTotalInStakes.getD i 0 : ℕ) : ℚ)))).flatten

/-- IEEE-754-style double values: a finite real, the two infinities, or NaN.
    Signed zero is not distinguished (no kernel here depends on it). -/
inductive Fp where
  | val : ℝ → Fp
  | pinf : Fp
  | ninf : Fp
  | nan : Fp

/-- IEEE addition on Fp values. -/
noncomputable def fpAdd : Fp → Fp → Fp
  | .nan, _ => .nan
  | _, .nan => .nan
  | .val x, .val y => .val (x + y)
  | .val _, .pinf => .pinf
  | .val _, .ninf => .ninf
  | .pinf, .val _ => .pinf
  | .ninf, .val _ => .ninf
  | .pinf, .pinf => .pinf
  | .ninf, .ninf => .ninf
  | .pinf, .ninf => .nan
  | .ninf, .pinf => .nan

/-- IEEE negation on Fp values. -/
noncomputable def fpNeg : Fp → Fp
  | .val x => .val (-x)
  | .pinf => .ninf
  | .ninf => .pinf
  | .nan => .nan

/-- IEEE subtraction on Fp values. -/
noncomputable def fpSub (a b : Fp) : Fp := fpAdd a (fpNeg b)

/-- IEEE multiplication on Fp values; in particular 0 * (plus or minus inf)
    is NaN. -/
noncomputable def fpMul : Fp → Fp → Fp
  | .nan, _ => .nan
  | _, .nan => .nan
  | .val x, .val y => .val (x * y)
  | .val x, .pinf => if x = 0 then .nan else if 0 < x then .pinf else .ninf
  | .val x, .ninf => if x = 0 then .nan else if 0 < x then .ninf else .pinf
  | .pinf, .val y => if y = 0 then .nan else if 0 < y then .pinf else .ninf
  | .ninf, .val y => if y = 0 then .nan else if 0 < y then .ninf else .pinf
  | .pinf, .pinf => .pinf
  | .pinf, .ninf => .ninf
  | .ninf, .pinf => .ninf
  | .ninf, .ninf => .pinf

/-- IEEE division on Fp values; x/0 is an infinity for x nonzero and NaN
    for x = 0 (signed zero ignored). -/
noncomputable def fpDiv : Fp → Fp → Fp
  | .nan, _ => .nan
  | _, .nan => .nan
  | .val x, .val y =>
    if y = 0 then (if x = 0 then .nan else if 0 < x then .pinf else .ninf)
    else .val (x / y)
  | .val _, .pinf => .val 0
  | .val _, .ninf => .val 0
  | .pinf, .val y => if 0 ≤ y then .pinf else .ninf
  | .ninf, .val y => if 0 ≤ y then .ninf else .pinf
  | .pinf, .pinf => .nan
  | .pinf, .ninf => .nan
  | .ninf, .pinf => .nan
  | .ninf, .ninf => .nan

/-- IEEE log2 on Fp values: log2(0) = -inf, log2 of a negative value is NaN. -/
noncomputable def fpLog2 : Fp → Fp
  | .val x => if x < 0 then .nan else if x = 0 then .ninf else .val (Real.logb 2 x)
  | .pinf => .pinf
  | .ninf => .nan
  | .nan => .nan

/-- KERNEL calculateNodeEntropy (rank.cu line 141), inner loop over one cid's
    slice: ent -= weight * log2(weight) with weight = stake[user]/oil and
    oil = totalOut + totalIn of the centered cid. There is no guard on
    log2(0): a zero-stake author makes the term 0 * (-inf) = NaN. -/
noncomputable def calculateNodeEntropySlice (stakes : List ℕ) (oil : ℕ)
    (users : List ℕ) : Fp :=
  users.foldl (fun ent u =>
    let weight := fpDiv (.val ((stakes.getD u 0 : ℕ) : ℝ)) (.val (oil : ℝ))
    fpSub ent (fpMul weight (fpLog2 weight))) (.val 0)

/-- KERNEL calculateNodeEntropy (rank.cu line 141): the per-cid map. -/
noncomputable def calculateNodeEntropy (cidsSize : ℕ) (stakes : List ℕ)
    (linksStartIndex linksCount linksUsers : List ℕ)
    (cidsTotalOutStakes cidsTotalInStakes : List ℕ) : List Fp :=
  (List.range cidsSize).map (fun i =>
    calculateNodeEntropySlice stakes
      (cidsTotalOutStakes.getD i 0 + cidsTotalInStakes.getD i 0)
      (sliceOf linksUsers (linksStartIndex.getD i 0) (linksCount.getD i 0)))

/-- KERNEL sumArrays (rank.cu line 186): elementwise IEEE addition. -/
noncomputable def sumArrays (size : ℕ) (in1 in2 : List Fp) : List Fp :=
  (List.range size).map (fun i => fpAdd (in1.getD i .nan) (in2.getD i .nan))

/-- KERNEL mulArrays (rank.cu line 171): elementwise IEEE multiplication. -/
noncomputable def mulArrays (size : ℕ) (in1 in2 : List Fp) : List Fp :=
  (List.range size).map (fun i => fpMul (in1.getD i .nan) (in2.getD i .nan))

/-- Inner loop of getCompressedInLinksCount after the first slice element:
    counts positions whose source differs from the previous one. -/
def compressedCountGo (prev : ℕ) : List ℕ → ℕ
  | [] => 0
  | o :: rest => (if o ≠ prev then 1 else 0) + compressedCountGo o rest

/-- KERNEL getCompressedInLinksCount (rank.cu line 280), one cid's slice of
    inLinksOuts: the first position always counts, later ones count when the
    source changes. -/
def getCompressedInLinksCountSlice : List ℕ → ℕ
  | [] => 0
  | o :: rest => 1 + compressedCountGo o rest

/-- KERNEL getCompressedInLinksCount (rank.cu line 280): the per-cid map;
    cids with an empty inbound slice get 0. -/
def getCompressedInLinksCount (cidsSize : ℕ)
    (inLinksStartIndex inLinksCount inLinksOuts : List ℕ) : List ℕ :=
  (List.range cidsSize).map (fun i =>
    if inLinksCount.getD i 0 = 0 then 0
    else getCompressedInLinksCountSlice
      (sliceOf inLinksOuts (inLinksStartIndex.getD i 0) (inLinksCount.getD i 0)))

/-- General loop of getCompressedInLinks (rank.cu lines 340-352) over one
    cid's slice of (inLinksOuts[j], inLinksUsers[j]) pairs: accumulate the
    stake of the run of equal sources, emit source and accumulated stake
    divided by the source's total outbound stake at each run boundary. -/
def compressGo (stakes cidsTotalOutStakes : List ℕ) (acc : ℕ) :
    List (ℕ × ℕ) → List CompressedInLink
  | [] => []
  | (o, u) :: rest =>
    let acc2 := acc + stakes.getD u 0
    match rest with
    | [] => [⟨o, (acc2 : ℚ) / ((cidsTotalOutStakes.getD o 0 : ℕ) : ℚ)⟩]
    | (o2, _) :: _ =>
      if o ≠ o2 then
        ⟨o, (acc2 : ℚ) / ((cidsTotalOutStakes.getD o 0 : ℕ) : ℚ)⟩ ::
          compressGo stakes cidsTotalOutStakes 0 rest
      else compressGo stakes cidsTotalOutStakes acc2 rest

/-- KERNEL getCompressedInLinks (rank.cu line 312), one cid's slice,
    including the inLinksCount == 1 fast path. -/
def getCompressedInLinksSlice (stakes cidsTotalOutStakes : List ℕ) :
    List (ℕ × ℕ) → List CompressedInLink
  | [] => []
  | [(o, u)] =>
    [⟨o, ((stakes.getD u 0 : ℕ) : ℚ) / ((cidsTotalOutStakes.getD o 0 : ℕ) : ℚ)⟩]
  | l => compressGo stakes cidsTotalOutStakes 0 l

/-- KERNEL getCompressedInLinks (rank.cu line 312): each cid writes its
    compressed entries starting at the exclusive prefix sum of the compressed
    counts, so the flat array is the concatenation of the per-cid lists. -/
def getCompressedInLinks (cidsSize : ℕ)
    (inLinksStartIndex inLinksCount cidsTotalOutStakes : List ℕ)
    (inLinksOuts inLinksUsers stakes : List ℕ) : List CompressedInLink :=
  ((List.range cidsSize).map (fun i =>
    getCompressedInLinksSlice stakes cidsTotalOutStakes
      ((sliceOf inLinksOuts (inLinksStartIndex.getD i 0) (inLinksCount.getD i 0)).zip
        (sliceOf inLinksUsers (inLinksStartIndex.getD i 0) (inLinksCount.getD i 0))))).flatten

/-- KERNEL calculateKarma (rank.cu line 357), rational carrier: sequential
    scatter karma[user[j]] += light[i] * w[j] over every cid's outbound
    slice. -/
def calculateKarma (cidsSize : ℕ)
    (outLinksStartIndex outLinksCount outLinksUsers : List ℕ)
    (cyberlinksLocalWeights light karma : List ℚ) : List ℚ :=
  (List.range cidsSize).foldl (fun karma1 i =>
    (List.range' (outLinksStartIndex.getD i 0) (outLinksCount.getD i 0)).foldl
      (fun karma2 j =>
        karma2.set (outLinksUsers.getD j 0)
          (karma2.getD (outLinksUsers.getD j 0) 0 +
            light.getD i 0 * cyberlinksLocalWeights.getD j 0)) karma1) karma

/-- KERNEL calculateKarma (rank.cu line 357), IEEE carrier, as launched by
    calculate_rank where light holds IEEE values. -/
noncomputable def calculateKarmaFp (cidsSize : ℕ)
    (outLinksStartIndex outLinksCount outLinksUsers : List ℕ)
    (cyberlinksLocalWeights : List ℚ) (light karma : List Fp) : List Fp :=
  (List.range cidsSize).foldl (fun karma1 i =>
    (List.range' (outLinksStartIndex.getD i 0) (outLinksCount.getD i 0)).foldl
      (fun karma2 j =>
        karma2.set (outLinksUsers.getD j 0)
          (fpAdd (karma2.getD (outLinksUsers.getD j 0) .nan)
            (fpMul (light.getD i .nan)
              (.val ((cyberlinksLocalWeights.getD j 0 : ℚ) : ℝ))))) karma1) karma

/-- KERNEL run_rank_iteration (rank.cu line 18): cids with zero compressed
    inbound links are skipped (continue), leaving the destination buffer entry
    untouched; the others get ksum * dampingFactor + defaultRankWithCorrection
    where ksum accumulates prevRank[from] * weight over the slice. -/
def run_rank_iteration (inLinks : List CompressedInLink)
    (prevRank rank : List ℚ) (rankSize : ℕ)
    (inLinksStartIndex inLinksCount : List ℕ)
    (defaultRankWithCorrection dampingFactor : ℚ) : List ℚ :=
  (List.range rankSize).map (fun i =>
    if inLinksCount.getD i 0 = 0 then rank.getD i 0
    else
      ((sliceOf inLinks (inLinksStartIndex.getD i 0) (inLinksCount.getD i 0)).foldl
        (fun ksum l => prevRank.getD l.fromIndex 0 * l.weight + ksum) 0) *
        dampingFactor + defaultRankWithCorrection)

/-- HOST find_max_ranks_diff (rank.cu line 64): elementwise differences,
    absolute value, max-reduce with initial value 0. -/
def find_max_ranks_diff (prevRank newRank : List ℚ) : ℚ :=
  ((List.zipWith (fun a b => a - b) prevRank newRank).map (fun x => |x|)).foldl max 0

/-- One trip of the while loop of calculate_rank (rank.cu lines 780-791):
    swap the ping-pong buffers, then run the iteration writing over the old
    prevRank buffer. -/
def rankLoopBody (inLinks : List CompressedInLink) (starts counts : List ℕ)
    (size : ℕ) (corr d : ℚ) (st : List ℚ × List ℚ) : List ℚ × List ℚ :=
  (st.2, run_rank_iteration inLinks st.2 st.1 size starts counts corr d)

/-- The while loop of calculate_rank with explicit fuel. The entry check
    change = tolerance + 1 > tolerance always passes, so the body runs at
    least once; afterwards the loop repeats exactly while the max rank diff
    exceeds tolerance. none means the fuel ran out before convergence. -/
def rankLoopGo (inLinks : List CompressedInLink) (starts counts : List ℕ)
    (size : ℕ) (corr d tol : ℚ) : ℕ → List ℚ × List ℚ → Option (List ℚ × List ℚ)
  | 0, _ => none
  | fuel + 1, st =>
    let st2 := rankLoopBody inLinks starts counts size corr d st
    if tol < find_max_ranks_diff st2.1 st2.2 then
      rankLoopGo inLinks starts counts size corr d tol fuel st2
    else some st2

/-- The caller-supplied inputs of calculate_rank (rank.cu line 407) that the
    computation consumes. outLinksIns feeds only the diagnostic QJ/ENT path,
    whose outputs are printed and freed; it is omitted, as are the sizes
    implied by list lengths. -/
structure GraphInput where
  stakes : List ℕ
  cidsSize : ℕ
  inLinksCount : List ℕ
  outLinksCount : List ℕ
  inLinksOuts : List ℕ
  inLinksUsers : List ℕ
  outLinksUsers : List ℕ
deriving DecidableEq, Repr

/-- STEP0: inbound start indexes. -/
def inStartIndex (g : GraphInput) : List ℕ := (getLinksStartIndex g.inLinksCount).1

/-- STEP0: outbound start indexes. -/
def outStartIndex (g : GraphInput) : List ℕ := (getLinksStartIndex g.outLinksCount).1

/-- STEP1: per-cid total outbound stake. -/
def totalOutStakes (g : GraphInput) : List ℕ :=
  calculateCidTotalOutStake g.cidsSize g.stakes (outStartIndex g) g.outLinksCount
    g.outLinksUsers

/-- DEV ENTROPY stage: per-cid total inbound stake (same kernel, inbound
    view). -/
def totalInStakes (g : GraphInput) : List ℕ :=
  calculateCidTotalOutStake g.cidsSize g.stakes (inStartIndex g) g.inLinksCount
    g.inLinksUsers

/-- The d_entropy device buffer: out-side entropy plus in-side entropy, both
    normalized by oil = totalOut + totalIn of the centered cid. This value is
    used to build light but is never copied back to the caller. -/
noncomputable def deviceEntropy (g : GraphInput) : List Fp :=
  sumArrays g.cidsSize
    (calculateNodeEntropy g.cidsSize g.stakes (outStartIndex g) g.outLinksCount
      g.outLinksUsers (totalOutStakes g) (totalInStakes g))
    (calculateNodeEntropy g.cidsSize g.stakes (inStartIndex g) g.inLinksCount
      g.inLinksUsers (totalOutStakes g) (totalInStakes g))

/-- LOCAL WEIGHTS stage: flat per-outbound-link weights. -/
def localWeights (g : GraphInput) : List ℚ :=
  calculateCyberlinksLocalWeights g.cidsSize g.stakes (outStartIndex g)
    g.outLinksCount g.outLinksUsers (totalOutStakes g) (totalInStakes g)

/-- STEP2: compressed inbound link counts. -/
def compInCount (g : GraphInput) : List ℕ :=
  getCompressedInLinksCount g.cidsSize (inStartIndex g) g.inLinksCount g.inLinksOuts

/-- STEP3: compressed inbound start indexes. -/
def compInStartIndex (g : GraphInput) : List ℕ :=
  (getLinksStartIndex (compInCount g)).1

/-- STEP4: the compressed inbound links. -/
def compInLinks (g : GraphInput) : List CompressedInLink :=
  getCompressedInLinks g.cidsSize (inStartIndex g) g.inLinksCount (totalOutStakes g)
    g.inLinksOuts g.inLinksUsers g.stakes

/-- STEP5: the uniform default rank (1 - d) / cidsSize. -/
def defaultRank (g : GraphInput) (dampingFactor : ℚ) : ℚ :=
  (1 - dampingFactor) / (g.cidsSize : ℚ)

/-- STEP5: number of cids with zero raw inbound links. -/
def danglingNodesSize (g : GraphInput) : ℕ :=
  ((List.range g.cidsSize).filter (fun i => g.inLinksCount.getD i 0 = 0)).length

/-- STEP5: defaultRankWithCorrection = d * (r0 * (D / N)) + r0. -/
def defaultRankWithCorrection (g : GraphInput) (d : ℚ) : ℚ :=
  d * (defaultRank g d * ((danglingNodesSize g : ℚ) / (g.cidsSize : ℚ))) +
    defaultRank g d

/-- STEP5: the rank array is set to the default rank everywhere, and both
    ping-pong device buffers are filled from it. -/
def rankInitVec (g : GraphInput) (d : ℚ) : List ℚ :=
  List.replicate g.cidsSize (defaultRank g d)

/-- The exported calculate_rank entry point (rank.cu line 407). It is a void
    C function performing no validation of dampingFactor or tolerance; the
    model returns the four caller-visible arrays (rank, entropy, light,
    karma) after the pipeline runs, or none if the while loop has not
    converged within fuel iterations. The computed entropy (deviceEntropy) is
    never copied back to the host: the entropy component of the result is the
    caller's input array unchanged. The light array is fully overwritten with
    rank * deviceEntropy; karma accumulates on top of the caller's buffer. -/
noncomputable def calculate_rank (g : GraphInput) (dampingFactor tolerance : ℚ)
    (entropy light karma : List ℚ) (fuel : ℕ) :
    Option (List ℚ × List ℚ × List Fp × List Fp) :=
  match rankLoopGo (compInLinks g) (compInStartIndex g) (compInCount g) g.cidsSize
      (defaultRankWithCorrection g dampingFactor) dampingFactor tolerance fuel
      (rankInitVec g dampingFactor, rankInitVec g dampingFactor) with
  | none => none
  | some st =>
    let rank := st.2
    let lightOut := mulArrays g.cidsSize (rank.map (fun q => Fp.val (q : ℚ)))
      (deviceEntropy g)
    let karmaOut := calculateKarmaFp g.cidsSize (outStartIndex g) g.outLinksCount
      g.outLinksUsers (localWeights g) lightOut (karma.map (fun q => Fp.val (q : ℚ)))
    some (rank, entropy, lightOut, karmaOut)

/-- The per-link karma increments (user, light * weight), in the order the
    sequential calculateKarma kernel performs them. -/
def karmaIncs (cidsSize : ℕ)
    (outLinksStartIndex outLinksCount outLinksUsers : List ℕ)
    (w light : List ℚ) : List (ℕ × ℚ) :=
  ((List.range cidsSize).map (fun i =>
    (List.range' (outLinksStartIndex.getD i 0) (outLinksCount.getD i 0)).map
      (fun j => (outLinksUsers.getD j 0, light.getD i 0 * w.getD j 0)))).flatten

/-- One scatter step of the karma kernel: karma[u] += q. -/
def applyInc (karma : List ℚ) (p : ℕ × ℚ) : List ℚ :=
  karma.set p.1 (karma.getD p.1 0 + p.2)

/-- Per-source total compressed weight: the sum of the weights of all
    compressed inbound links whose source is s (the column sum of the
    compressed transition matrix). -/
def colWeightSum (links : List CompressedInLink) (s : ℕ) : ℚ :=
  ((links.filter (fun l => l.fromIndex = s)).map (fun l => l.weight)).sum

/-- Scenario S4 of the spec: two users (stakes 3 and 7) each author the edge
    0 -> 1. -/
def gS4 : GraphInput := ⟨[3, 7], 2, [0, 2], [2, 0], [0, 0], [0, 1], [0, 1]⟩

/-- Scenario S3 of the spec: three cids, single edge 0 -> 1 by user 0 with
    stake 1; cids 0 and 2 are dangling. -/
def gS3 : GraphInput := ⟨[1], 3, [0, 1, 0], [1, 0, 0], [0], [0], [0]⟩

/-- Scenario S2 of the spec: two-cid ring 0 -> 1 -> 0, one user of stake
    10. -/
def gRing : GraphInput := ⟨[10], 2, [1, 1], [1, 1], [1, 0], [0, 0], [0, 0]⟩

/-- Scenario S1 of the spec: a single cid with no links, one user of
    stake 1. -/
def gS1 : GraphInput := ⟨[1], 1, [0], [0], [], [], []⟩

/-- A graph with a zero-stake author: users 0 (stake 0) and 1 (stake 5) both
    author the edge 0 -> 1, so cid 0's outbound slice contains a zero-stake
    term while oil[0] = 5. -/
def gZeroStake : GraphInput := ⟨[0, 5], 2, [0, 2], [2, 0], [0, 0], [0, 1], [0, 1]⟩

/- ------------------------------------------------------------------ -/
/- Helper lemmas                                                      -/
/- ------------------------------------------------------------------ -/

theorem getD_map_range {α : Type} (f : ℕ → α) (n i : ℕ) (dflt : α) (h : i < n) :
    ((List.range n).map f).getD i dflt = f i := by
  simp [List.getD, List.getElem?_map, List.getElem?_range, h]

theorem getD_replicate {α : Type} (a dflt : α) (n i : ℕ) (h : i < n) :
    (List.replicate n a).getD i dflt = a := by
  simp [List.getD, List.getElem?_replicate, h]

theorem foldl_add_eq_sum {α : Type} (f : α → ℚ) (xs : List α) (a : ℚ) :
    xs.foldl (fun ks l => f l + ks) a = (xs.map f).sum + a := by
  induction xs generalizing a with
  | nil => simp
  | cons x xs ih => rw [List.foldl_cons, ih, List.map_cons, List.sum_cons]; ring

/-- A cid with zero compressed inbound count is skipped by the iteration
    kernel: its destination-buffer entry is returned unchanged. -/
theorem run_rank_iteration_skip (inLinks : List CompressedInLink)
    (prevRank buf : List ℚ) (size : ℕ) (starts counts : List ℕ) (corr d : ℚ)
    (c : ℕ) (hc : c < size) (h0 : counts.getD c 0 = 0) :
    (run_rank_iteration inLinks prevRank buf size starts counts corr d).getD c 0 =
      buf.getD c 0 := by
  unfold run_rank_iteration
  rw [getD_map_range _ _ _ _ hc, if_pos h0]

/-- If the loop returns, the final max rank diff is at most the tolerance. -/
theorem rankLoopGo_some_diff_le (inLinks : List CompressedInLink)
    (starts counts : List ℕ) (size : ℕ) (corr d tol : ℚ) :
    ∀ (fuel : ℕ) (st st2 : List ℚ × List ℚ),
      rankLoopGo inLinks starts counts size corr d tol fuel st = some st2 →
      find_max_ranks_diff st2.1 st2.2 ≤ tol := by
  intro fuel
  induction fuel with
  | zero => intro st st2 h; simp [rankLoopGo] at h
  | succ fuel ih =>
    intro st st2 h
    unfold rankLoopGo at h
    by_cases hlt : tol < find_max_ranks_diff
        (rankLoopBody inLinks starts counts size corr d st).1
        (rankLoopBody inLinks starts counts size corr d st).2
    · rw [if_pos hlt] at h
      exact ih _ _ h
    · rw [if_neg hlt] at h
      cases h
      exact le_of_not_lt hlt

/-- Both loop buffers keep their value at a skipped (dangling) cid. -/
theorem rankLoopGo_dangling_invariant (inLinks : List CompressedInLink)
    (starts counts : List ℕ) (size : ℕ) (corr d tol : ℚ) (c : ℕ) (v : ℚ)
    (hc : c < size) (h0 : counts.getD c 0 = 0) :
    ∀ (fuel : ℕ) (a b : List ℚ) (st2 : List ℚ × List ℚ),
      a.getD c 0 = v → b.getD c 0 = v →
      rankLoopGo inLinks starts counts size corr d tol fuel (a, b) = some st2 →
      st2.1.getD c 0 = v ∧ st2.2.getD c 0 = v := by
  intro fuel
  induction fuel with
  | zero => intro a b st2 _ _ h; simp [rankLoopGo] at h
  | succ fuel ih =>
    intro a b st2 ha hb h
    unfold rankLoopGo at h
    have hbody : (rankLoopBody inLinks starts counts size corr d (a, b)).1.getD c 0 = v ∧
        (rankLoopBody inLinks starts counts size corr d (a, b)).2.getD c 0 = v := by
      constructor
      · exact hb
      · rw [show (rankLoopBody inLinks starts counts size corr d (a, b)).2 =
            run_rank_iteration inLinks b a size starts counts corr d from rfl]
        rw [run_rank_iteration_skip inLinks b a size starts counts corr d c hc h0]
        exact ha
    by_cases hlt : tol < find_max_ranks_diff
        (rankLoopBody inLinks starts counts size corr d (a, b)).1
        (rankLoopBody inLinks starts counts size corr d (a, b)).2
    · rw [if_pos hlt] at h
      exact ih _ _ _ hbody.1 hbody.2 h
    · rw [if_neg hlt] at h
      cases h
      exact hbody

/- ------------------------------------------------------------------ -/
/- Concrete evaluations shared by several claims                      -/
/- ------------------------------------------------------------------ -/

theorem eval_corr_gS3 : defaultRankWithCorrection gS3 (1 / 2) = 2 / 9 := by
  norm_num [defaultRankWithCorrection, defaultRank, danglingNodesSize, gS3,
    show List.range 3 = [0, 1, 2] from rfl]

theorem eval_compInLinks_gS3 : compInLinks gS3 = [⟨0, 1⟩] := by
  norm_num [compInLinks, getCompressedInLinks, getCompressedInLinksSlice, compressGo,
    sliceOf, inStartIndex, getLinksStartIndex, getLinksStartIndexGo, totalOutStakes,
    calculateCidTotalOutStake, outStartIndex, gS3, show List.range 3 = [0, 1, 2] from rfl,
    show List.range 2 = [0, 1] from rfl]

theorem eval_iter_gS3 : run_rank_iteration (compInLinks gS3) (rankInitVec gS3 (1 / 2))
    (rankInitVec gS3 (1 / 2)) 3 (compInStartIndex gS3) (compInCount gS3)
    (defaultRankWithCorrection gS3 (1 / 2)) (1 / 2) = [1 / 6, 11 / 36, 1 / 6] := by
  norm_num [run_rank_iteration, compInLinks, getCompressedInLinks,
    getCompressedInLinksSlice, compressGo, sliceOf, inStartIndex, getLinksStartIndex,
    getLinksStartIndexGo, totalOutStakes, calculateCidTotalOutStake, outStartIndex,
    compInStartIndex, compInCount, getCompressedInLinksCount,
    getCompressedInLinksCountSlice, compressedCountGo, rankInitVec, defaultRank,
    defaultRankWithCorrection, danglingNodesSize, gS3,
    show List.range 3 = [0, 1, 2] from rfl, show List.range 2 = [0, 1] from rfl]

theorem eval_loop_gS3 : rankLoopGo (compInLinks gS3) (compInStartIndex gS3)
    (compInCount gS3) gS3.cidsSize (defaultRankWithCorrection gS3 (1 / 2)) (1 / 2) 1 2
    (rankInitVec gS3 (1 / 2), rankInitVec gS3 (1 / 2)) =
    some ([1 / 6, 1 / 6, 1 / 6], [1 / 6, 11 / 36, 1 / 6]) := by
  norm_num [rankLoopGo, rankLoopBody, find_max_ranks_diff, run_rank_iteration,
    compInLinks, getCompressedInLinks, getCompressedInLinksSlice, compressGo,
    sliceOf, inStartIndex, getLinksStartIndex, getLinksStartIndexGo, totalOutStakes,
    calculateCidTotalOutStake, outStartIndex, compInStartIndex, compInCount,
    getCompressedInLinksCount, getCompressedInLinksCountSlice, compressedCountGo,
    rankInitVec, defaultRank, defaultRankWithCorrection, danglingNodesSize, gS3,
    List.replicate_succ, List.replicate_zero, abs_eq_max_neg, max_def,
    show List.range 3 = [0, 1, 2] from rfl, show List.range 2 = [0, 1] from rfl]

theorem eval_compInLinks_gS4 : compInLinks gS4 = [⟨0, 1⟩] := by
  norm_num [compInLinks, getCompressedInLinks, getCompressedInLinksSlice, compressGo,
    sliceOf, inStartIndex, getLinksStartIndex, getLinksStartIndexGo, totalOutStakes,
    calculateCidTotalOutStake, outStartIndex, gS4, show List.range 2 = [0, 1] from rfl]

/- ------------------------------------------------------------------ -/
/- C1: what dangling cids receive in each iteration                   -/
/- ------------------------------------------------------------------ -/

/-- C1 counterexample: in scenario S3 (cids 0 and 2 dangling, d = 1/2) the
    first power iteration leaves the dangling cid 0 at the uncorrected
    default rank r0 = 1/6, not at the corrected default r~ = 2/9 that the
    claim says is written. -/
theorem c1_counterexample :
    (compInCount gS3).getD 0 0 = 0 ∧
    defaultRankWithCorrection gS3 (1 / 2) = 2 / 9 ∧
    (run_rank_iteration (compInLinks gS3) (rankInitVec gS3 (1 / 2))
      (rankInitVec gS3 (1 / 2)) 3 (compInStartIndex gS3) (compInCount gS3)
      (defaultRankWithCorrection gS3 (1 / 2)) (1 / 2)).getD 0 0 = 1 / 6 ∧
    (1 : ℚ) / 6 ≠ 2 / 9 := by
  refine ⟨by decide, eval_corr_gS3, ?_, by norm_num⟩
  rw [eval_iter_gS3]
  rfl

/-- C1 amended: run_rank_iteration skips every cid with compCount = 0
    (continue), leaving the destination buffer untouched; since calculate_rank
    fills both ping-pong buffers with the uncorrected default rank
    r0 = (1 - d)/N, every dangling cid still holds r0 (not the corrected
    default r~) in the returned rank array. -/
theorem c1_dangling_keeps_default (g : GraphInput) (d tol : ℚ)
    (entropy light karma : List ℚ) (fuel : ℕ)
    (out : List ℚ × List ℚ × List Fp × List Fp) (c : ℕ)
    (hc : c < g.cidsSize) (h0 : (compInCount g).getD c 0 = 0)
    (h : calculate_rank g d tol entropy light karma fuel = some out) :
    out.1.getD c 0 = defaultRank g d := by
  unfold calculate_rank at h
  cases hLoop : rankLoopGo (compInLinks g) (compInStartIndex g) (compInCount g)
      g.cidsSize (defaultRankWithCorrection g d) d tol fuel
      (rankInitVec g d, rankInitVec g d) with
  | none => rw [hLoop] at h; cases h
  | some st =>
    rw [hLoop] at h
    have hrank : out.1 = st.2 := by
      cases h
      rfl
    have hinit : (rankInitVec g d).getD c 0 = defaultRank g d :=
      getD_replicate _ _ _ _ hc
    rw [hrank]
    exact (rankLoopGo_dangling_invariant (compInLinks g) (compInStartIndex g)
      (compInCount g) g.cidsSize (defaultRankWithCorrection g d) d tol c
      (defaultRank g d) hc h0 fuel _ _ st hinit hinit hLoop).2

/-- C1 witness: scenario S3 with d = 1/2, tolerance 1, two units of fuel;
    cid 0 is dangling and the returned rank keeps the uncorrected default
    1/6. -/
theorem c1_dangling_keeps_default_witness :
    ∃ out, calculate_rank gS3 (1 / 2) 1 [0, 0, 0] [0, 0, 0] [0] 2 = some out ∧
      out.1.getD 0 0 = defaultRank gS3 (1 / 2) := by
  have hLoop : rankLoopGo (compInLinks gS3) (compInStartIndex gS3) (compInCount gS3)
      gS3.cidsSize (defaultRankWithCorrection gS3 (1 / 2)) (1 / 2) 1 2
      (rankInitVec gS3 (1 / 2), rankInitVec gS3 (1 / 2)) =
      some ([1 / 6, 1 / 6, 1 / 6], [1 / 6, 11 / 36, 1 / 6]) := eval_loop_gS3
  have h : calculate_rank gS3 (1 / 2) 1 [0, 0, 0] [0, 0, 0] [0] 2 =
      some ([1 / 6, 11 / 36, 1 / 6], [0, 0, 0],
        mulArrays gS3.cidsSize (([1 / 6, 11 / 36, 1 / 6] : List ℚ).map
          (fun q => Fp.val (q : ℚ))) (deviceEntropy gS3),
        calculateKarmaFp gS3.cidsSize (outStartIndex gS3) gS3.outLinksCount
          gS3.outLinksUsers (localWeights gS3)
          (mulArrays gS3.cidsSize (([1 / 6, 11 / 36, 1 / 6] : List ℚ).map
            (fun q => Fp.val (q : ℚ))) (deviceEntropy gS3))
          (([0] : List ℚ).map (fun q => Fp.val (q : ℚ)))) := by
    unfold calculate_rank
    rw [hLoop]
  exact ⟨_, h, c1_dangling_keeps_default gS3 (1 / 2) 1 [0, 0, 0] [0, 0, 0] [0] 2 _ 0
    (by decide) (by decide) h⟩

/- ------------------------------------------------------------------ -/
/- C2: per-iteration update formula and loop termination condition    -/
/- ------------------------------------------------------------------ -/

/-- C2: for every cid with a nonempty compressed inbound slice the iteration
    writes d * (sum of prevRank[source] * weight over the slice) + r~; the
    initial rank vector holds r0 = (1 - d)/N everywhere; and the while loop
    stops exactly when the max elementwise rank difference is at most the
    tolerance (it recurses precisely while the difference exceeds it). -/
theorem c2_rank_update_and_termination (inLinks : List CompressedInLink)
    (starts counts : List ℕ) (size : ℕ) (corr d tol : ℚ) :
    (∀ (prevRank buf : List ℚ) (c : ℕ), c < size → counts.getD c 0 ≠ 0 →
      (run_rank_iteration inLinks prevRank buf size starts counts corr d).getD c 0 =
        d * ((sliceOf inLinks (starts.getD c 0) (counts.getD c 0)).map
          (fun l => prevRank.getD l.fromIndex 0 * l.weight)).sum + corr) ∧
    (∀ (g : GraphInput) (d2 : ℚ) (c : ℕ), c < g.cidsSize →
      (rankInitVec g d2).getD c 0 = (1 - d2) / (g.cidsSize : ℚ)) ∧
    (∀ (fuel : ℕ) (st st2 : List ℚ × List ℚ),
      rankLoopGo inLinks starts counts size corr d tol fuel st = some st2 →
      find_max_ranks_diff st2.1 st2.2 ≤ tol) ∧
    (∀ (fuel : ℕ) (st : List ℚ × List ℚ),
      tol < find_max_ranks_diff (rankLoopBody inLinks starts counts size corr d st).1
        (rankLoopBody inLinks starts counts size corr d st).2 →
      rankLoopGo inLinks starts counts size corr d tol (fuel + 1) st =
        rankLoopGo inLinks starts counts size corr d tol fuel
          (rankLoopBody inLinks starts counts size corr d st)) ∧
    (∀ (fuel : ℕ) (st : List ℚ × List ℚ),
      find_max_ranks_diff (rankLoopBody inLinks starts counts size corr d st).1
        (rankLoopBody inLinks starts counts size corr d st).2 ≤ tol →
      rankLoopGo inLinks starts counts size corr d tol (fuel + 1) st =
        some (rankLoopBody inLinks starts counts size corr d st)) := by
  refine ⟨?_, ?_, rankLoopGo_some_diff_le inLinks starts counts size corr d tol,
    ?_, ?_⟩
  · intro prevRank buf c hc h0
    unfold run_rank_iteration
    rw [getD_map_range _ _ _ _ hc, if_neg h0, foldl_add_eq_sum]
    ring
  · intro g d2 c hc
    exact getD_replicate _ _ _ _ hc
  · intro fuel st hlt
    have hstep : rankLoopGo inLinks starts counts size corr d tol (fuel + 1) st =
        if tol < find_max_ranks_diff (rankLoopBody inLinks starts counts size corr d st).1
            (rankLoopBody inLinks starts counts size corr d st).2 then
          rankLoopGo inLinks starts counts size corr d tol fuel
            (rankLoopBody inLinks starts counts size corr d st)
        else some (rankLoopBody inLinks starts counts size corr d st) := rfl
    rw [hstep, if_pos hlt]
  · intro fuel st hle
    have hstep : rankLoopGo inLinks starts counts size corr d tol (fuel + 1) st =
        if tol < find_max_ranks_diff (rankLoopBody inLinks starts counts size corr d st).1
            (rankLoopBody inLinks starts counts size corr d st).2 then
          rankLoopGo inLinks starts counts size corr d tol fuel
            (rankLoopBody inLinks starts counts size corr d st)
        else some (rankLoopBody inLinks starts counts size corr d st) := rfl
    rw [hstep, if_neg (not_lt.mpr hle)]

/-- C2 witness: scenario S3 at d = 1/2; cid 1 has one compressed inbound
    link and the first iteration writes 1/2 * (1/6 * 1) + 2/9 = 11/36; a
    concrete loop run with tolerance 1 exits with diff 5/36 at most 1. -/
theorem c2_rank_update_and_termination_witness :
    ((run_rank_iteration (compInLinks gS3) (rankInitVec gS3 (1 / 2))
      (rankInitVec gS3 (1 / 2)) 3 (compInStartIndex gS3) (compInCount gS3)
      (defaultRankWithCorrection gS3 (1 / 2)) (1 / 2)).getD 1 0 =
      (1 / 2) * ((sliceOf (compInLinks gS3) ((compInStartIndex gS3).getD 1 0)
        ((compInCount gS3).getD 1 0)).map
        (fun l => (rankInitVec gS3 (1 / 2)).getD l.fromIndex 0 * l.weight)).sum +
        defaultRankWithCorrection gS3 (1 / 2)) ∧
    find_max_ranks_diff ([1 / 6, 1 / 6, 1 / 6] : List ℚ)
      ([1 / 6, 11 / 36, 1 / 6] : List ℚ) ≤ 1 := by
  constructor
  · exact (c2_rank_update_and_termination (compInLinks gS3) (compInStartIndex gS3)
      (compInCount gS3) 3 (defaultRankWithCorrection gS3 (1 / 2)) (1 / 2) 1).1
      (rankInitVec gS3 (1 / 2)) (rankInitVec gS3 (1 / 2)) 1 (by decide) (by decide)
  · exact (c2_rank_update_and_termination (compInLinks gS3) (compInStartIndex gS3)
      (compInCount gS3) 3 (defaultRankWithCorrection gS3 (1 / 2)) (1 / 2) 1).2.2.1
      2 (rankInitVec gS3 (1 / 2), rankInitVec gS3 (1 / 2))
      ([1 / 6, 1 / 6, 1 / 6], [1 / 6, 11 / 36, 1 / 6]) eval_loop_gS3

/- ------------------------------------------------------------------ -/
/- C9: scenario S4 compression                                        -/
/- ------------------------------------------------------------------ -/

/-- C9: in scenario S4 (two users with stakes 3 and 7 both authoring the
    edge 0 -> 1) compression folds the two raw inbound links of cid 1 into a
    single entry with source 0 and weight (3 + 7)/totalOutStake[0] = 1. -/
theorem c9_s4_compression :
    (compInCount gS4).getD 1 0 = 1 ∧
    compInLinks gS4 =
      [⟨0, ((3 + 7 : ℕ) : ℚ) / (((totalOutStakes gS4).getD 0 0 : ℕ) : ℚ)⟩] ∧
    compInLinks gS4 = [⟨0, 1⟩] := by
  refine ⟨by decide, ?_, eval_compInLinks_gS4⟩
  rw [eval_compInLinks_gS4]
  norm_num [show totalOutStakes gS4 = [10, 0] from by decide]

/- ------------------------------------------------------------------ -/
/- Karma kernel machinery                                             -/
/- ------------------------------------------------------------------ -/

theorem getD_set_self_q (l : List ℚ) (i : ℕ) (a : ℚ) (h : i < l.length) :
    (l.set i a).getD i 0 = a := by
  simp [List.getD, List.getElem?_set_self, h]

theorem getD_set_ne_q (l : List ℚ) (i j : ℕ) (a : ℚ) (h : i ≠ j) :
    (l.set i a).getD j 0 = l.getD j 0 := by
  simp [List.getD, List.getElem?_set_ne h]

theorem applyIncs_length (incs : List (ℕ × ℚ)) (karma : List ℚ) :
    (incs.foldl applyInc karma).length = karma.length := by
  induction incs generalizing karma with
  | nil => rfl
  | cons p incs ih =>
    rw [List.foldl_cons, ih]
    simp [applyInc]

theorem applyIncs_getD (incs : List (ℕ × ℚ)) (karma : List ℚ) (u : ℕ)
    (hu : u < karma.length) (hin : ∀ p ∈ incs, p.1 < karma.length) :
    (incs.foldl applyInc karma).getD u 0 =
      karma.getD u 0 + (incs.map (fun p => if p.1 = u then p.2 else 0)).sum := by
  induction incs generalizing karma with
  | nil => simp
  | cons p incs ih =>
    have hlen : (applyInc karma p).length = karma.length := by simp [applyInc]
    have hu2 : u < (applyInc karma p).length := by rw [hlen]; exact hu
    have hin2 : ∀ q ∈ incs, q.1 < (applyInc karma p).length := by
      intro q hq
      rw [hlen]
      exact hin q (List.mem_cons_of_mem p hq)
    have hp : p.1 < karma.length := hin p (List.mem_cons_self p incs)
    rw [List.foldl_cons, ih (applyInc karma p) hu2 hin2, List.map_cons, List.sum_cons]
    unfold applyInc
    by_cases hpu : p.1 = u
    · rw [if_pos hpu, hpu, getD_set_self_q karma u _ hu]
      ring
    · rw [if_neg hpu, getD_set_ne_q karma p.1 u _ hpu]
      ring

/-- The nested scatter loops of calculateKarma are the fold of the flat
    increment list. -/
theorem calculateKarma_eq_foldl_incs (cidsSize : ℕ)
    (starts counts users : List ℕ) (w light karma : List ℚ) :
    calculateKarma cidsSize starts counts users w light karma =
      (karmaIncs cidsSize starts counts users w light).foldl applyInc karma := by
  unfold calculateKarma karmaIncs
  rw [List.foldl_flatten, List.foldl_map]
  simp only [List.foldl_map]
  rfl

/- ------------------------------------------------------------------ -/
/- C10: karma accumulates on top of the caller's buffer               -/
/- ------------------------------------------------------------------ -/

/-- C10: the karma kernel adds to the caller-supplied buffer: the final value
    at user u is the initial karma[u] plus the sum of light[i] * w[j] over all
    outbound slice positions j whose author is u. -/
theorem c10_karma_accumulates (cidsSize : ℕ) (starts counts users : List ℕ)
    (w light karma : List ℚ) (u : ℕ) (hu : u < karma.length)
    (husers : ∀ i ∈ List.range cidsSize,
      ∀ j ∈ List.range' (starts.getD i 0) (counts.getD i 0),
        users.getD j 0 < karma.length) :
    (calculateKarma cidsSize starts counts users w light karma).getD u 0 =
      karma.getD u 0 + ((List.range cidsSize).map (fun i =>
        ((List.range' (starts.getD i 0) (counts.getD i 0)).map (fun j =>
          if users.getD j 0 = u then light.getD i 0 * w.getD j 0 else 0)).sum)).sum := by
  rw [calculateKarma_eq_foldl_incs]
  have hin : ∀ p ∈ karmaIncs cidsSize starts counts users w light,
      p.1 < karma.length := by
    intro p hp
    unfold karmaIncs at hp
    rw [List.mem_flatten] at hp
    obtain ⟨chunk, hchunk, hpc⟩ := hp
    rw [List.mem_map] at hchunk
    obtain ⟨i, hi, rfl⟩ := hchunk
    rw [List.mem_map] at hpc
    obtain ⟨j, hj, rfl⟩ := hpc
    exact husers i hi j hj
  rw [applyIncs_getD _ _ _ hu hin]
  congr 1
  unfold karmaIncs
  rw [List.map_flatten, List.sum_flatten, List.map_map, List.map_map]
  congr 1
  refine List.map_congr_left ?_
  intro i _
  simp only [Function.comp_apply]
  rw [List.map_map]
  refine congrArg List.sum (List.map_congr_left ?_)
  intro j _
  simp

/-- C10 witness: the two-cid ring with light = [1, 1] and initial karma [0];
    user 0 authors both edges and ends with 0 + (1 * 1/2 + 1 * 1/2). -/
theorem c10_karma_accumulates_witness :
    0 < ([0] : List ℚ).length ∧
    (calculateKarma gRing.cidsSize (outStartIndex gRing) gRing.outLinksCount
      gRing.outLinksUsers (localWeights gRing) [1, 1] [0]).getD 0 0 =
      ([0] : List ℚ).getD 0 0 + ((List.range gRing.cidsSize).map (fun i =>
        ((List.range' ((outStartIndex gRing).getD i 0)
          (gRing.outLinksCount.getD i 0)).map (fun j =>
          if gRing.outLinksUsers.getD j 0 = 0 then
            ([1, 1] : List ℚ).getD i 0 * (localWeights gRing).getD j 0 else 0)).sum)).sum :=
  ⟨by decide, c10_karma_accumulates gRing.cidsSize (outStartIndex gRing)
    gRing.outLinksCount gRing.outLinksUsers (localWeights gRing) [1, 1] [0] 0
    (by decide) (by decide)⟩

/- ------------------------------------------------------------------ -/
/- Prefix-sum and slice machinery                                     -/
/- ------------------------------------------------------------------ -/

theorem startIndexGo_getD (counts : List ℕ) :
    ∀ (off i : ℕ), i < counts.length →
      (getLinksStartIndexGo off counts).1.getD i 0 = off + (counts.take i).sum := by
  induction counts with
  | nil => intro off i h; simp at h
  | cons c cs ih =>
    intro off i h
    cases i with
    | zero => simp [getLinksStartIndexGo]
    | succ i =>
      rw [show (getLinksStartIndexGo off (c :: cs)).1 =
        off :: (getLinksStartIndexGo (off + c) cs).1 from rfl]
      rw [List.getD_cons_succ, ih (off + c) i (by simpa using h)]
      rw [List.take_succ_cons, List.sum_cons]
      omega

theorem startIndexGo_snd (counts : List ℕ) :
    ∀ off : ℕ, (getLinksStartIndexGo off counts).2 = off + counts.sum := by
  induction counts with
  | nil => intro off; simp [getLinksStartIndexGo]
  | cons c cs ih =>
    intro off
    rw [show (getLinksStartIndexGo off (c :: cs)).2 =
      (getLinksStartIndexGo (off + c) cs).2 from rfl]
    rw [ih (off + c), List.sum_cons]
    omega

theorem sum_take_succ_getD (counts : List ℕ) (i : ℕ) (h : i < counts.length) :
    (counts.take (i + 1)).sum = (counts.take i).sum + counts.getD i 0 := by
  rw [List.take_succ]
  rw [List.sum_append]
  congr 1
  simp [List.getD, List.getElem?_eq_getElem, h]

theorem sum_take_le (counts : List ℕ) (i : ℕ) :
    (counts.take i).sum ≤ counts.sum := by
  have h := List.sum_take_add_sum_drop counts i
  omega

theorem length_sliceOf {α : Type} (l : List α) (s n : ℕ) :
    (sliceOf l s n).length = min n (l.length - s) := by
  simp [sliceOf]

theorem sliceOf_append {α : Type} (ch rest : List α) (s n : ℕ) :
    sliceOf (ch ++ rest) (ch.length + s) n = sliceOf rest s n := by
  induction ch with
  | nil => simp [sliceOf]
  | cons a ch ih =>
    have h : (a :: ch).length + s = (ch.length + s) + 1 := by
      simp [List.length_cons]
      omega
    rw [List.cons_append]
    unfold sliceOf
    rw [h, List.drop_succ_cons]
    simpa [sliceOf] using ih

/-- Slices of the flattened chunk list cut at the exclusive prefix sums of
    the chunk lengths recover the chunks. -/
theorem sliceOf_flatten {α : Type} (chunks : List (List α)) (counts : List ℕ)
    (hlen : chunks.length = counts.length)
    (hc : ∀ k, k < counts.length → (chunks.getD k []).length = counts.getD k 0) :
    ∀ i, i < counts.length →
      sliceOf chunks.flatten ((getLinksStartIndex counts).1.getD i 0)
        (counts.getD i 0) = chunks.getD i [] := by
  induction chunks generalizing counts with
  | nil =>
    intro i hi
    rw [← hlen] at hi
    simp at hi
  | cons ch chs ih =>
    obtain ⟨c, cs, rfl⟩ : ∃ c cs, counts = c :: cs := by
      cases counts with
      | nil => simp at hlen
      | cons c cs => exact ⟨c, cs, rfl⟩
    have hch : ch.length = c := by
      have h0 := hc 0 (by simp)
      simpa using h0
    intro i hi
    cases i with
    | zero =>
      rw [show (getLinksStartIndex (c :: cs)).1.getD 0 0 = 0 from rfl]
      show sliceOf (ch ++ chs.flatten) 0 ((c :: cs).getD 0 0) = ch
      unfold sliceOf
      rw [List.drop_zero, show (c :: cs).getD 0 0 = c from rfl, ← hch, List.take_left]
    | succ i =>
      have hicx : i < cs.length := by simpa using hi
      have hstart : (getLinksStartIndex (c :: cs)).1.getD (i + 1) 0 =
          ch.length + (getLinksStartIndex cs).1.getD i 0 := by
        unfold getLinksStartIndex
        rw [startIndexGo_getD _ 0 (i + 1) (by simpa using hi),
          startIndexGo_getD _ 0 i hicx, List.take_succ_cons, List.sum_cons, hch]
        omega
      rw [hstart, List.flatten_cons]
      rw [show (c :: cs).getD (i + 1) 0 = cs.getD i 0 from rfl,
        show (ch :: chs).getD (i + 1) ([] : List α) = chs.getD i [] from rfl]
      rw [sliceOf_append]
      refine ih cs (by simpa using hlen) ?_ i hicx
      intro k hk
      have hk1 := hc (k + 1) (by simpa using hk)
      simpa using hk1

theorem map_getD_range' (w : List ℚ) :
    ∀ (n s : ℕ), s + n ≤ w.length →
      (List.range' s n).map (fun j => w.getD j 0) = sliceOf w s n := by
  intro n
  induction n with
  | zero => intro s _; simp [sliceOf]
  | succ n ih =>
    intro s h
    have hs : s < w.length := by omega
    rw [List.range'_succ, List.map_cons, ih (s + 1) (by omega)]
    unfold sliceOf
    rw [List.drop_eq_getElem_cons hs, List.take_succ_cons]
    congr 1
    simp [List.getD, List.getElem?_eq_getElem, hs]

theorem sum_map_div {α : Type} (l : List α) (f : α → ℚ) (c : ℚ) :
    (l.map (fun x => f x / c)).sum = (l.map f).sum / c := by
  induction l with
  | nil => simp
  | cons x l ih => simp [ih, add_div]

theorem sum_map_mul_left {α : Type} (l : List α) (c : ℚ) (f : α → ℚ) :
    (l.map (fun x => c * f x)).sum = c * (l.map f).sum := by
  induction l with
  | nil => simp
  | cons x l ih => simp [ih, mul_add]

theorem finset_sum_list_sum_comm {β : Type} (s : Finset β) (l : List ℕ)
    (f : β → ℕ → ℚ) :
    ∑ u ∈ s, (l.map (f u)).sum = (l.map (fun j => ∑ u ∈ s, f u j)).sum := by
  induction l with
  | nil => simp
  | cons j l ih => simp [List.map_cons, List.sum_cons, Finset.sum_add_distrib, ih]

theorem list_sum_eq_getD_sum {α : Type} [AddCommMonoid α] (l : List α) :
    l.sum = ∑ i ∈ Finset.range l.length, l.getD i 0 := by
  induction l with
  | nil => simp
  | cons x l ih =>
    rw [List.sum_cons, ih, List.length_cons, Finset.sum_range_succ']
    simp [add_comm]

/- ------------------------------------------------------------------ -/
/- C6: total karma versus total light                                 -/
/- ------------------------------------------------------------------ -/

theorem eval_localWeights_gRing : localWeights gRing = [1 / 2, 1 / 2] := by
  norm_num [localWeights, calculateCyberlinksLocalWeights, sliceOf, outStartIndex,
    inStartIndex, getLinksStartIndex, getLinksStartIndexGo, totalOutStakes,
    totalInStakes, calculateCidTotalOutStake, gRing,
    show List.range 2 = [0, 1] from rfl]

/-- C6 counterexample: in the two-cid ring every node has totalInStake = 10,
    so each outbound slice's weights sum to 10/20 = 1/2, not 1; with
    light = [1, 1] and zero-initialized karma the kernel returns total karma
    1 while total light is 2. -/
theorem c6_counterexample :
    (totalInStakes gRing).getD 0 0 ≠ 0 ∧
    (calculateKarma gRing.cidsSize (outStartIndex gRing) gRing.outLinksCount
      gRing.outLinksUsers (localWeights gRing) [1, 1] [0]).sum = 1 ∧
    ([1, 1] : List ℚ).sum = 2 ∧ (1 : ℚ) ≠ 2 := by
  refine ⟨by decide, ?_, by norm_num, by norm_num⟩
  norm_num [calculateKarma, eval_localWeights_gRing,
    show outStartIndex gRing = [0, 1] from by decide,
    show gRing.outLinksCount = [1, 1] from rfl,
    show gRing.outLinksUsers = [0, 0] from rfl,
    show gRing.cidsSize = 2 from rfl,
    show List.range 2 = [0, 1] from rfl,
    show List.range' 0 1 = [0] from rfl, show List.range' 1 1 = [1] from rfl]

/-- C6 amended: the total karma excess over the initial buffer is the sum of
    light[c] * totalOutStake[c] / (totalOutStake[c] + totalInStake[c]) over
    all cids (exact rational arithmetic, with 0/0 = 0). It equals the total
    light only when every node with outbound links has totalInStake = 0, so
    the claimed conservation law fails for general graphs. -/
theorem c6_karma_total (g : GraphInput) (light karma : List ℚ)
    (hcounts : g.outLinksCount.length = g.cidsSize)
    (htotal : (getLinksStartIndex g.outLinksCount).2 = g.outLinksUsers.length)
    (husers : ∀ i ∈ List.range g.cidsSize,
      ∀ j ∈ List.range' ((outStartIndex g).getD i 0) (g.outLinksCount.getD i 0),
        g.outLinksUsers.getD j 0 < karma.length) :
    (calculateKarma g.cidsSize (outStartIndex g) g.outLinksCount g.outLinksUsers
      (localWeights g) light karma).sum =
      karma.sum + ∑ i ∈ Finset.range g.cidsSize,
        light.getD i 0 * (((totalOutStakes g).getD i 0 : ℚ) /
          (((totalOutStakes g).getD i 0 + (totalInStakes g).getD i 0 : ℕ) : ℚ)) := by
  have husers_len : g.outLinksUsers.length = g.outLinksCount.sum := by
    rw [← htotal]
    unfold getLinksStartIndex
    rw [startIndexGo_snd]
    omega
  have hstart : ∀ i, i < g.cidsSize →
      (outStartIndex g).getD i 0 = (g.outLinksCount.take i).sum := by
    intro i hi
    unfold outStartIndex getLinksStartIndex
    rw [startIndexGo_getD _ 0 i (by omega)]
    omega
  have hbound : ∀ i, i < g.cidsSize →
      (outStartIndex g).getD i 0 + g.outLinksCount.getD i 0 ≤ g.outLinksCount.sum := by
    intro i hi
    rw [hstart i hi, ← sum_take_succ_getD _ _ (by omega)]
    exact sum_take_le _ _
  have hslicelen : ∀ k, k < g.cidsSize →
      (sliceOf g.outLinksUsers ((outStartIndex g).getD k 0)
        (g.outLinksCount.getD k 0)).length = g.outLinksCount.getD k 0 := by
    intro k hk
    rw [length_sliceOf, husers_len]
    have h1 := hbound k hk
    exact Nat.min_eq_left (by omega)
  have hwlen : (localWeights g).length = g.outLinksCount.sum := by
    have hm : (List.range g.cidsSize).map (List.length ∘ (fun i =>
        (sliceOf g.outLinksUsers ((outStartIndex g).getD i 0)
          (g.outLinksCount.getD i 0)).map (fun u => (g.stakes.getD u 0 : ℚ) /
            (((totalOutStakes g).getD i 0 + (totalInStakes g).getD i 0 : ℕ) : ℚ)))) =
        (List.range g.cidsSize).map (fun k => g.outLinksCount.getD k 0) := by
      refine List.map_congr_left ?_
      intro k hk
      rw [List.mem_range] at hk
      simp only [Function.comp_apply, List.length_map]
      exact hslicelen k hk
    unfold localWeights calculateCyberlinksLocalWeights
    rw [List.length_flatten, List.map_map, hm]
    rw [show ((List.range g.cidsSize).map (fun k => g.outLinksCount.getD k 0)).sum =
      ∑ k ∈ Finset.range g.cidsSize, g.outLinksCount.getD k 0 from rfl]
    rw [← hcounts, ← list_sum_eq_getD_sum]
  have hchunks : ∀ i, i < g.cidsSize →
      sliceOf (localWeights g) ((outStartIndex g).getD i 0) (g.outLinksCount.getD i 0) =
        (sliceOf g.outLinksUsers ((outStartIndex g).getD i 0)
          (g.outLinksCount.getD i 0)).map (fun u => (g.stakes.getD u 0 : ℚ) /
            (((totalOutStakes g).getD i 0 + (totalInStakes g).getD i 0 : ℕ) : ℚ)) := by
    intro i hi
    have h := sliceOf_flatten
      ((List.range g.cidsSize).map (fun k =>
        (sliceOf g.outLinksUsers ((outStartIndex g).getD k 0)
          (g.outLinksCount.getD k 0)).map (fun u => (g.stakes.getD u 0 : ℚ) /
            (((totalOutStakes g).getD k 0 + (totalInStakes g).getD k 0 : ℕ) : ℚ))))
      g.outLinksCount (by simp [hcounts]) ?_ i (by omega)
    · rw [show localWeights g = ((List.range g.cidsSize).map (fun k =>
        (sliceOf g.outLinksUsers ((outStartIndex g).getD k 0)
          (g.outLinksCount.getD k 0)).map (fun u => (g.stakes.getD u 0 : ℚ) /
            (((totalOutStakes g).getD k 0 + (totalInStakes g).getD k 0 : ℕ) : ℚ)))).flatten
        from rfl]
      rw [show (outStartIndex g).getD i 0 =
        (getLinksStartIndex g.outLinksCount).1.getD i 0 from rfl]
      rw [h]
      rw [getD_map_range _ _ _ _ (by omega)]
      rfl
    · intro k hk
      rw [getD_map_range _ _ _ _ (by omega), List.length_map]
      exact hslicelen k (by omega)
  have hres := calculateKarma_eq_foldl_incs g.cidsSize (outStartIndex g)
    g.outLinksCount g.outLinksUsers (localWeights g) light karma
  have hreslen : (calculateKarma g.cidsSize (outStartIndex g) g.outLinksCount
      g.outLinksUsers (localWeights g) light karma).length = karma.length := by
    rw [hres]
    exact applyIncs_length _ _
  rw [list_sum_eq_getD_sum (calculateKarma g.cidsSize (outStartIndex g)
    g.outLinksCount g.outLinksUsers (localWeights g) light karma), hreslen]
  rw [Finset.sum_congr rfl (fun u hu => c10_karma_accumulates g.cidsSize
    (outStartIndex g) g.outLinksCount g.outLinksUsers (localWeights g) light karma u
    (Finset.mem_range.mp hu) husers)]
  rw [Finset.sum_add_distrib, ← list_sum_eq_getD_sum karma]
  congr 1
  have hswap : ∑ u ∈ Finset.range karma.length,
      ((List.range g.cidsSize).map (fun i =>
        ((List.range' ((outStartIndex g).getD i 0) (g.outLinksCount.getD i 0)).map
          (fun j => if g.outLinksUsers.getD j 0 = u then
            light.getD i 0 * (localWeights g).getD j 0 else 0)).sum)).sum =
      ∑ i ∈ Finset.range g.cidsSize, ∑ u ∈ Finset.range karma.length,
        ((List.range' ((outStartIndex g).getD i 0) (g.outLinksCount.getD i 0)).map
          (fun j => if g.outLinksUsers.getD j 0 = u then
            light.getD i 0 * (localWeights g).getD j 0 else 0)).sum := by
    have h1 : ∑ u ∈ Finset.range karma.length,
        ((List.range g.cidsSize).map (fun i =>
          ((List.range' ((outStartIndex g).getD i 0) (g.outLinksCount.getD i 0)).map
            (fun j => if g.outLinksUsers.getD j 0 = u then
              light.getD i 0 * (localWeights g).getD j 0 else 0)).sum)).sum =
        ∑ u ∈ Finset.range karma.length, ∑ i ∈ Finset.range g.cidsSize,
          ((List.range' ((outStartIndex g).getD i 0) (g.outLinksCount.getD i 0)).map
            (fun j => if g.outLinksUsers.getD j 0 = u then
              light.getD i 0 * (localWeights g).getD j 0 else 0)).sum :=
      Finset.sum_congr rfl (fun u _ => rfl)
    rw [h1]
    exact Finset.sum_comm
  rw [hswap]
  refine Finset.sum_congr rfl ?_
  intro i hi
  have hi2 : i < g.cidsSize := Finset.mem_range.mp hi
  rw [finset_sum_list_sum_comm]
  have hpointwise : (List.range' ((outStartIndex g).getD i 0)
      (g.outLinksCount.getD i 0)).map (fun j => ∑ u ∈ Finset.range karma.length,
        if g.outLinksUsers.getD j 0 = u then
          light.getD i 0 * (localWeights g).getD j 0 else 0) =
      (List.range' ((outStartIndex g).getD i 0) (g.outLinksCount.getD i 0)).map
        (fun j => light.getD i 0 * (localWeights g).getD j 0) := by
    refine List.map_congr_left ?_
    intro j hj
    rw [Finset.sum_ite_eq]
    rw [if_pos (Finset.mem_range.mpr (husers i (List.mem_range.mpr hi2) j hj))]
  rw [hpointwise, sum_map_mul_left, map_getD_range' _ _ _
    (by rw [hwlen]; exact hbound i hi2), hchunks i hi2, sum_map_div]
  congr 1
  rw [show (totalOutStakes g).getD i 0 = ((sliceOf g.outLinksUsers
    ((outStartIndex g).getD i 0) (g.outLinksCount.getD i 0)).map
      (fun u => g.stakes.getD u 0)).sum from getD_map_range _ _ _ _ hi2]
  rw [Nat.cast_list_sum, List.map_map]
  rfl

/-- C6 amended-claim witness: the ring graph with light = [1, 1] and karma
    buffer [0]: total karma 1 = 0 + (1 * 10/20 + 1 * 10/20). -/
theorem c6_karma_total_witness :
    (calculateKarma gRing.cidsSize (outStartIndex gRing) gRing.outLinksCount
      gRing.outLinksUsers (localWeights gRing) [1, 1] [0]).sum =
      ([0] : List ℚ).sum + ∑ i ∈ Finset.range gRing.cidsSize,
        ([1, 1] : List ℚ).getD i 0 * (((totalOutStakes gRing).getD i 0 : ℚ) /
          (((totalOutStakes gRing).getD i 0 + (totalInStakes gRing).getD i 0 : ℕ) : ℚ)) :=
  c6_karma_total gRing [1, 1] [0] (by decide) (by decide) (by decide)

/- ------------------------------------------------------------------ -/
/- C7: compression faithfulness                                       -/
/- ------------------------------------------------------------------ -/

theorem compressGo_singleton (stakes T : List ℕ) (acc o u : ℕ) :
    compressGo stakes T acc [(o, u)] =
      [⟨o, ((acc + stakes.getD u 0 : ℕ) : ℚ) / ((T.getD o 0 : ℕ) : ℚ)⟩] := rfl

theorem compressGo_cons_cons (stakes T : List ℕ) (acc o u o2 u2 : ℕ)
    (rest : List (ℕ × ℕ)) :
    compressGo stakes T acc ((o, u) :: (o2, u2) :: rest) =
      if o ≠ o2 then
        ⟨o, ((acc + stakes.getD u 0 : ℕ) : ℚ) / ((T.getD o 0 : ℕ) : ℚ)⟩ ::
          compressGo stakes T 0 ((o2, u2) :: rest)
      else compressGo stakes T (acc + stakes.getD u 0) ((o2, u2) :: rest) := rfl

/-- One run-accumulation pass of the emit loop: the weighted sum of the
    emitted entries (weight times the source's total outbound stake) is the
    carried accumulator plus the slice's stake sum, provided a source with
    zero total outbound stake only ever carries zero stake (a consequence of
    the two CSR views describing the same link multiset). -/
theorem compressGo_weighted_sum (stakes T : List ℕ) :
    ∀ (rest : List (ℕ × ℕ)) (o u acc : ℕ),
      (∀ p ∈ (o, u) :: rest, T.getD p.1 0 = 0 → stakes.getD p.2 0 = 0) →
      (T.getD o 0 = 0 → acc = 0) →
      ((compressGo stakes T acc ((o, u) :: rest)).map
        (fun l => l.weight * (T.getD l.fromIndex 0 : ℚ))).sum =
        ((acc + (((o, u) :: rest).map (fun p => stakes.getD p.2 0)).sum : ℕ) : ℚ) := by
  intro rest
  induction rest with
  | nil =>
    intro o u acc hzero hacc
    rw [compressGo_singleton]
    simp only [List.map_cons, List.map_nil, List.sum_cons, List.sum_nil]
    by_cases hT : T.getD o 0 = 0
    · have hu : stakes.getD u 0 = 0 := hzero (o, u) (by simp) hT
      have ha : acc = 0 := hacc hT
      simp only [hT, hu, ha]
      norm_num
    · rw [div_mul_cancel₀ _ (by exact_mod_cast hT : ((T.getD o 0 : ℕ) : ℚ) ≠ 0)]
      push_cast [List.map_cons, List.map_nil, List.sum_cons, List.sum_nil]
      ring
  | cons q rest ih =>
    obtain ⟨o2, u2⟩ := q
    intro o u acc hzero hacc
    rw [compressGo_cons_cons]
    by_cases hoo : o ≠ o2
    · rw [if_pos hoo, List.map_cons, List.sum_cons]
      rw [ih o2 u2 0 (fun p hp h => hzero p (List.mem_cons_of_mem _ hp) h)
        (fun _ => rfl)]
      simp only [List.map_cons, List.sum_cons]
      by_cases hT : T.getD o 0 = 0
      · have hu : stakes.getD u 0 = 0 := hzero (o, u) (by simp) hT
        have ha : acc = 0 := hacc hT
        simp only [hT, hu, ha]
        norm_num
      · rw [div_mul_cancel₀ _ (by exact_mod_cast hT : ((T.getD o 0 : ℕ) : ℚ) ≠ 0)]
        push_cast [List.map_cons, List.sum_cons]
        ring
    · rw [if_neg hoo]
      rw [not_ne_iff] at hoo
      rw [ih o2 u2 (acc + stakes.getD u 0)
        (fun p hp h => hzero p (List.mem_cons_of_mem _ hp) h) ?_]
      · simp only [List.map_cons, List.sum_cons]
        push_cast
        ring
      · intro hT2
        have hT : T.getD o 0 = 0 := by rw [hoo]; exact hT2
        have hu : stakes.getD u 0 = 0 := hzero (o, u) (by simp) hT
        have ha : acc = 0 := hacc hT
        omega

/-- C7: for every target node whose raw inbound slice is sorted by source
    (the caller's precondition) and consistent with the outbound view (a
    source with totalOutStake 0 contributes only zero-stake links), the sum
    over the compressed slice of weight * totalOutStake[source] equals the
    raw inbound stake sum, exactly, in rational arithmetic. -/
theorem c7_compression_faithful (stakes T : List ℕ) (slice : List (ℕ × ℕ))
    (hsorted : List.Chain' (fun a b => a.1 ≤ b.1) slice)
    (hzero : ∀ p ∈ slice, T.getD p.1 0 = 0 → stakes.getD p.2 0 = 0) :
    ((getCompressedInLinksSlice stakes T slice).map
      (fun l => l.weight * (T.getD l.fromIndex 0 : ℚ))).sum =
      (((slice.map (fun p => stakes.getD p.2 0)).sum : ℕ) : ℚ) := by
  match slice with
  | [] => simp [getCompressedInLinksSlice]
  | [(o, u)] =>
    rw [show getCompressedInLinksSlice stakes T [(o, u)] =
      [⟨o, ((stakes.getD u 0 : ℕ) : ℚ) / ((T.getD o 0 : ℕ) : ℚ)⟩] from rfl]
    simp only [List.map_cons, List.map_nil, List.sum_cons, List.sum_nil]
    by_cases hT : T.getD o 0 = 0
    · have hu : stakes.getD u 0 = 0 := hzero (o, u) (by simp) hT
      simp only [hT, hu]
      norm_num
    · rw [div_mul_cancel₀ _ (by exact_mod_cast hT : ((T.getD o 0 : ℕ) : ℚ) ≠ 0)]
      push_cast [List.map_cons, List.map_nil, List.sum_cons, List.sum_nil]
      ring
  | (o, u) :: (o2, u2) :: rest =>
    rw [show getCompressedInLinksSlice stakes T ((o, u) :: (o2, u2) :: rest) =
      compressGo stakes T 0 ((o, u) :: (o2, u2) :: rest) from rfl]
    rw [compressGo_weighted_sum stakes T ((o2, u2) :: rest) o u 0 hzero (fun _ => rfl)]
    push_cast
    ring

/-- C7 witness: sorted slice [(0,0), (0,1), (2,2)] with stakes [3, 7, 5] and
    totalOutStakes [10, 0, 5]: the compressed entries carry 10/10 and 5/5 and
    the weighted sum telescopes back to 15. -/
theorem c7_compression_faithful_witness :
    List.Chain' (fun a b => a.1 ≤ b.1) [((0 : ℕ), (0 : ℕ)), (0, 1), (2, 2)] ∧
    (∀ p ∈ [((0 : ℕ), (0 : ℕ)), (0, 1), (2, 2)],
      ([10, 0, 5] : List ℕ).getD p.1 0 = 0 → ([3, 7, 5] : List ℕ).getD p.2 0 = 0) ∧
    ((getCompressedInLinksSlice [3, 7, 5] [10, 0, 5] [(0, 0), (0, 1), (2, 2)]).map
      (fun l => l.weight * (([10, 0, 5] : List ℕ).getD l.fromIndex 0 : ℚ))).sum =
      ((([(0, 0), (0, 1), (2, 2)].map
        (fun p => ([3, 7, 5] : List ℕ).getD p.2 0)).sum : ℕ) : ℚ) :=
  ⟨by simp [List.chain'_cons], by decide,
    c7_compression_faithful [3, 7, 5] [10, 0, 5] [(0, 0), (0, 1), (2, 2)]
      (by simp [List.chain'_cons]) (by decide)⟩

/- ------------------------------------------------------------------ -/
/- IEEE value evaluation lemmas                                       -/
/- ------------------------------------------------------------------ -/

theorem fpAdd_nan_left (x : Fp) : fpAdd .nan x = .nan := by cases x <;> rfl

theorem fpAdd_nan_right (x : Fp) : fpAdd x .nan = .nan := by cases x <;> rfl

theorem fpSub_nan_left (x : Fp) : fpSub .nan x = .nan := by cases x <;> rfl

theorem fpSub_nan_right (x : Fp) : fpSub x .nan = .nan := by cases x <;> rfl

theorem fpAdd_val_val (x y : ℝ) : fpAdd (.val x) (.val y) = .val (x + y) := rfl

theorem fpSub_val_val (x y : ℝ) : fpSub (.val x) (.val y) = .val (x - y) := by
  rw [sub_eq_add_neg]
  rfl

theorem fpMul_val_val (x y : ℝ) : fpMul (.val x) (.val y) = .val (x * y) := rfl

theorem fpMul_val_zero_ninf : fpMul (.val 0) .ninf = .nan := by simp [fpMul]

theorem fpDiv_val_val (x y : ℝ) (h : y ≠ 0) :
    fpDiv (.val x) (.val y) = .val (x / y) := by simp [fpDiv, h]

theorem fpLog2_val_zero : fpLog2 (.val 0) = .ninf := by simp [fpLog2]

theorem fpLog2_val_pos (x : ℝ) (h : 0 < x) :
    fpLog2 (.val x) = .val (Real.logb 2 x) := by
  show (if x < 0 then Fp.nan else if x = 0 then Fp.ninf
    else Fp.val (Real.logb 2 x)) = _
  rw [if_neg (not_lt.mpr h.le), if_neg h.ne']

/- ------------------------------------------------------------------ -/
/- C5: the entropy kernel on a zero-stake author                      -/
/- ------------------------------------------------------------------ -/

theorem eval_entropySlice_gZeroStake :
    calculateNodeEntropySlice [0, 5] 5 [0, 1] = .nan := by
  simp only [calculateNodeEntropySlice, List.foldl_cons, List.foldl_nil]
  rw [show (([0, 5] : List ℕ).getD 0 0) = 0 from rfl]
  rw [show ((0 : ℕ) : ℝ) = 0 from by norm_num]
  rw [fpDiv_val_val 0 _ (by norm_num), zero_div, fpLog2_val_zero,
    fpMul_val_zero_ninf, fpSub_nan_right, fpSub_nan_left]

theorem eval_deviceEntropy_gZeroStake :
    (deviceEntropy gZeroStake).getD 0 .nan = Fp.nan := by
  unfold deviceEntropy sumArrays calculateNodeEntropy
  rw [getD_map_range _ _ _ _ (by decide : 0 < gZeroStake.cidsSize)]
  rw [getD_map_range _ _ _ _ (by decide : 0 < gZeroStake.cidsSize)]
  rw [getD_map_range _ _ _ _ (by decide : 0 < gZeroStake.cidsSize)]
  rw [show sliceOf gZeroStake.outLinksUsers ((outStartIndex gZeroStake).getD 0 0)
    (gZeroStake.outLinksCount.getD 0 0) = [0, 1] from by decide]
  rw [show sliceOf gZeroStake.inLinksUsers ((inStartIndex gZeroStake).getD 0 0)
    (gZeroStake.inLinksCount.getD 0 0) = [] from by decide]
  rw [show (totalOutStakes gZeroStake).getD 0 0 +
    (totalInStakes gZeroStake).getD 0 0 = 5 from by decide]
  rw [show gZeroStake.stakes = [0, 5] from rfl]
  rw [eval_entropySlice_gZeroStake]
  rw [show calculateNodeEntropySlice [0, 5] 5 [] = .val 0 from rfl]
  exact fpAdd_nan_left _

/-- C5: the entropy kernel has no guard on log2(0): with stakes [0, 5] and
    both edges authored from cid 0 (oil[0] = 5), the zero-stake author's term
    is 0 * log2(0) = 0 * (-inf) = NaN, not 0, and the node's computed entropy
    is NaN rather than a finite double. -/
theorem c5_entropy_nan :
    gZeroStake.stakes.getD 0 0 = 0 ∧
    (totalOutStakes gZeroStake).getD 0 0 + (totalInStakes gZeroStake).getD 0 0 ≠ 0 ∧
    fpMul (fpDiv (.val ((0 : ℕ) : ℝ)) (.val ((5 : ℕ) : ℝ)))
      (fpLog2 (fpDiv (.val ((0 : ℕ) : ℝ)) (.val ((5 : ℕ) : ℝ)))) = .nan ∧
    (deviceEntropy gZeroStake).getD 0 .nan = Fp.nan := by
  refine ⟨by decide, by decide, ?_, eval_deviceEntropy_gZeroStake⟩
  rw [show ((0 : ℕ) : ℝ) = 0 from by norm_num]
  rw [fpDiv_val_val 0 _ (by norm_num), zero_div, fpLog2_val_zero,
    fpMul_val_zero_ninf]

/- ------------------------------------------------------------------ -/
/- C3: the computed entropy is never written back to the caller       -/
/- ------------------------------------------------------------------ -/

theorem eval_entropySlice_gRing :
    calculateNodeEntropySlice [10] 20 [0] = .val (1 / 2) := by
  simp only [calculateNodeEntropySlice, List.foldl_cons, List.foldl_nil]
  rw [show (([10] : List ℕ).getD 0 0) = 10 from rfl]
  rw [fpDiv_val_val _ _ (by norm_num)]
  rw [show (((10 : ℕ) : ℝ) / ((20 : ℕ) : ℝ)) = 1 / 2 from by norm_num]
  rw [fpLog2_val_pos _ (by norm_num)]
  rw [show Real.logb 2 (1 / 2) = -1 from by
    rw [one_div, Real.logb_inv, Real.logb_self_eq_one (by norm_num)]]
  rw [fpMul_val_val, fpSub_val_val]
  norm_num

theorem eval_deviceEntropy_gRing :
    deviceEntropy gRing = [.val 1, .val 1] := by
  unfold deviceEntropy sumArrays calculateNodeEntropy
  rw [show List.range gRing.cidsSize = [0, 1] from rfl]
  simp only [List.map_cons, List.map_nil]
  simp only [List.getD_cons_zero, List.getD_cons_succ]
  rw [show sliceOf gRing.outLinksUsers ((outStartIndex gRing).getD 0 0)
    (gRing.outLinksCount.getD 0 0) = [0] from by decide]
  rw [show sliceOf gRing.inLinksUsers ((inStartIndex gRing).getD 0 0)
    (gRing.inLinksCount.getD 0 0) = [0] from by decide]
  rw [show sliceOf gRing.outLinksUsers ((outStartIndex gRing).getD 1 0)
    (gRing.outLinksCount.getD 1 0) = [0] from by decide]
  rw [show sliceOf gRing.inLinksUsers ((inStartIndex gRing).getD 1 0)
    (gRing.inLinksCount.getD 1 0) = [0] from by decide]
  rw [show (totalOutStakes gRing).getD 0 0 + (totalInStakes gRing).getD 0 0 = 20
    from by decide]
  rw [show (totalOutStakes gRing).getD 1 0 + (totalInStakes gRing).getD 1 0 = 20
    from by decide]
  rw [show gRing.stakes = [10] from rfl]
  rw [eval_entropySlice_gRing, fpAdd_val_val]
  norm_num

theorem eval_loop_gRing : rankLoopGo (compInLinks gRing) (compInStartIndex gRing)
    (compInCount gRing) gRing.cidsSize (defaultRankWithCorrection gRing (1 / 2))
    (1 / 2) 1 2 (rankInitVec gRing (1 / 2), rankInitVec gRing (1 / 2)) =
    some ([1 / 4, 1 / 4], [3 / 8, 3 / 8]) := by
  norm_num [rankLoopGo, rankLoopBody, find_max_ranks_diff, run_rank_iteration,
    compInLinks, getCompressedInLinks, getCompressedInLinksSlice, compressGo,
    sliceOf, inStartIndex, getLinksStartIndex, getLinksStartIndexGo, totalOutStakes,
    calculateCidTotalOutStake, outStartIndex, compInStartIndex, compInCount,
    getCompressedInLinksCount, getCompressedInLinksCountSlice, compressedCountGo,
    rankInitVec, defaultRank, defaultRankWithCorrection, danglingNodesSize, gRing,
    List.replicate_succ, List.replicate_zero, abs_eq_max_neg, max_def,
    show List.range 2 = [0, 1] from rfl]

/-- C3: calculate_rank never copies the computed entropy back to the caller:
    on the two-cid ring the returned entropy array is the caller's input
    [0, 0] unchanged, while the device-side entropy H_out + H_in that the
    claim says is published evaluates to 1 at every node. -/
theorem c3_entropy_not_published :
    ∃ out, calculate_rank gRing (1 / 2) 1 [0, 0] [0, 0] [0] 2 = some out ∧
      out.2.1 = [0, 0] ∧
      deviceEntropy gRing = [.val 1, .val 1] ∧
      Fp.val (1 : ℝ) ≠ Fp.val (0 : ℝ) := by
  have h : calculate_rank gRing (1 / 2) 1 [0, 0] [0, 0] [0] 2 =
      some ([3 / 8, 3 / 8], [0, 0],
        mulArrays gRing.cidsSize (([3 / 8, 3 / 8] : List ℚ).map
          (fun q => Fp.val (q : ℚ))) (deviceEntropy gRing),
        calculateKarmaFp gRing.cidsSize (outStartIndex gRing) gRing.outLinksCount
          gRing.outLinksUsers (localWeights gRing)
          (mulArrays gRing.cidsSize (([3 / 8, 3 / 8] : List ℚ).map
            (fun q => Fp.val (q : ℚ))) (deviceEntropy gRing))
          (([0] : List ℚ).map (fun q => Fp.val (q : ℚ)))) := by
    unfold calculate_rank
    rw [eval_loop_gRing]
  refine ⟨_, h, rfl, eval_deviceEntropy_gRing, ?_⟩
  intro hcontr
  have : (1 : ℝ) = 0 := Fp.val.inj hcontr
  norm_num at this

/- ------------------------------------------------------------------ -/
/- C4: no parameter validation, no return code                        -/
/- ------------------------------------------------------------------ -/

theorem eval_loop_gS1 (d : ℚ) : rankLoopGo (compInLinks gS1) (compInStartIndex gS1)
    (compInCount gS1) gS1.cidsSize (defaultRankWithCorrection gS1 d) d (1 / 1000) 2
    (rankInitVec gS1 d, rankInitVec gS1 d) = some ([1 - d], [1 - d]) := by
  norm_num [rankLoopGo, rankLoopBody, find_max_ranks_diff, run_rank_iteration,
    compInLinks, getCompressedInLinks, getCompressedInLinksSlice, compressGo,
    sliceOf, inStartIndex, getLinksStartIndex, getLinksStartIndexGo, totalOutStakes,
    calculateCidTotalOutStake, outStartIndex, compInStartIndex, compInCount,
    getCompressedInLinksCount, getCompressedInLinksCountSlice, compressedCountGo,
    rankInitVec, defaultRank, defaultRankWithCorrection, danglingNodesSize, gS1,
    List.replicate_succ, List.replicate_zero, abs_eq_max_neg, max_def,
    show List.range 1 = [0] from rfl]

theorem eval_loop_gS1_negTol :
    ∀ fuel : ℕ, rankLoopGo (compInLinks gS1) (compInStartIndex gS1)
      (compInCount gS1) gS1.cidsSize (defaultRankWithCorrection gS1 (1 / 2)) (1 / 2)
      (-1) fuel (rankInitVec gS1 (1 / 2), rankInitVec gS1 (1 / 2)) = none := by
  intro fuel
  induction fuel with
  | zero => rfl
  | succ fuel ih =>
    have hbody : rankLoopBody (compInLinks gS1) (compInStartIndex gS1)
        (compInCount gS1) gS1.cidsSize (defaultRankWithCorrection gS1 (1 / 2))
        (1 / 2) (rankInitVec gS1 (1 / 2), rankInitVec gS1 (1 / 2)) =
        (rankInitVec gS1 (1 / 2), rankInitVec gS1 (1 / 2)) := rfl
    have hdiff : find_max_ranks_diff (rankInitVec gS1 (1 / 2))
        (rankInitVec gS1 (1 / 2)) = 0 := by
      simp [find_max_ranks_diff, rankInitVec, show gS1.cidsSize = 1 from rfl]
    have hstep : rankLoopGo (compInLinks gS1) (compInStartIndex gS1)
        (compInCount gS1) gS1.cidsSize (defaultRankWithCorrection gS1 (1 / 2))
        (1 / 2) (-1) (fuel + 1)
        (rankInitVec gS1 (1 / 2), rankInitVec gS1 (1 / 2)) =
        if (-1 : ℚ) < find_max_ranks_diff
            (rankLoopBody (compInLinks gS1) (compInStartIndex gS1) (compInCount gS1)
              gS1.cidsSize (defaultRankWithCorrection gS1 (1 / 2)) (1 / 2)
              (rankInitVec gS1 (1 / 2), rankInitVec gS1 (1 / 2))).1
            (rankLoopBody (compInLinks gS1) (compInStartIndex gS1) (compInCount gS1)
              gS1.cidsSize (defaultRankWithCorrection gS1 (1 / 2)) (1 / 2)
              (rankInitVec gS1 (1 / 2), rankInitVec gS1 (1 / 2))).2 then
          rankLoopGo (compInLinks gS1) (compInStartIndex gS1) (compInCount gS1)
            gS1.cidsSize (defaultRankWithCorrection gS1 (1 / 2)) (1 / 2) (-1) fuel
            (rankLoopBody (compInLinks gS1) (compInStartIndex gS1) (compInCount gS1)
              gS1.cidsSize (defaultRankWithCorrection gS1 (1 / 2)) (1 / 2)
              (rankInitVec gS1 (1 / 2), rankInitVec gS1 (1 / 2)))
        else some (rankLoopBody (compInLinks gS1) (compInStartIndex gS1)
          (compInCount gS1) gS1.cidsSize (defaultRankWithCorrection gS1 (1 / 2))
          (1 / 2) (rankInitVec gS1 (1 / 2), rankInitVec gS1 (1 / 2))) := rfl
    rw [hstep, hbody]
    simp only [hdiff]
    rw [if_pos (by norm_num : (-1 : ℚ) < 0)]
    exact ih

/-- C4 counterexample: dampingFactor 2 lies outside (0, 1), yet calculate_rank
    performs no validation: the pipeline runs to completion and writes the
    meaningless rank (1 - 2)/1 = -1 into the caller's array instead of
    rejecting the invocation. -/
theorem c4_counterexample :
    ¬((0 : ℚ) < 2 ∧ (2 : ℚ) < 1) ∧
    ∃ out, calculate_rank gS1 2 (1 / 1000) [0] [0] [0] 2 = some out ∧
      out.1 = [-1] := by
  refine ⟨by norm_num, ?_⟩
  have h : calculate_rank gS1 2 (1 / 1000) [0] [0] [0] 2 =
      some ([1 - 2], [0],
        mulArrays gS1.cidsSize (([1 - 2] : List ℚ).map (fun q => Fp.val (q : ℚ)))
          (deviceEntropy gS1),
        calculateKarmaFp gS1.cidsSize (outStartIndex gS1) gS1.outLinksCount
          gS1.outLinksUsers (localWeights gS1)
          (mulArrays gS1.cidsSize (([1 - 2] : List ℚ).map (fun q => Fp.val (q : ℚ)))
            (deviceEntropy gS1))
          (([0] : List ℚ).map (fun q => Fp.val (q : ℚ)))) := by
    unfold calculate_rank
    rw [eval_loop_gS1 2]
  exact ⟨_, h, by norm_num⟩

/-- C4 amended: calculate_rank is a void C function with no validation
    whatsoever: for every dampingFactor, including values outside (0, 1), it
    unconditionally runs the pipeline and fills the output arrays (rank
    becomes [(1 - d)/N]); with tolerance < 0 it does not reject either but
    simply never terminates (max diff 0 always exceeds a negative tolerance).
    No return code exists; outcomes reach the caller only through the output
    arrays. -/
theorem c4_no_validation :
    (∀ d : ℚ, ∃ out, calculate_rank gS1 d (1 / 1000) [0] [0] [0] 2 = some out ∧
      out.1 = [1 - d]) ∧
    (∀ fuel : ℕ, calculate_rank gS1 (1 / 2) (-1) [0] [0] [0] fuel = none) := by
  constructor
  · intro d
    have h : calculate_rank gS1 d (1 / 1000) [0] [0] [0] 2 =
        some ([1 - d], [0],
          mulArrays gS1.cidsSize (([1 - d] : List ℚ).map (fun q => Fp.val (q : ℚ)))
            (deviceEntropy gS1),
          calculateKarmaFp gS1.cidsSize (outStartIndex gS1) gS1.outLinksCount
            gS1.outLinksUsers (localWeights gS1)
            (mulArrays gS1.cidsSize (([1 - d] : List ℚ).map
              (fun q => Fp.val (q : ℚ))) (deviceEntropy gS1))
            (([0] : List ℚ).map (fun q => Fp.val (q : ℚ)))) := by
      unfold calculate_rank
      rw [eval_loop_gS1 d]
    exact ⟨_, h, rfl⟩
  · intro fuel
    unfold calculate_rank
    rw [eval_loop_gS1_negTol fuel]

/- ------------------------------------------------------------------ -/
/- C8: termination machinery - generic list lemmas                    -/
/- ------------------------------------------------------------------ -/

theorem sum_map_sub {α : Type} (l : List α) (f g : α → ℚ) :
    (l.map f).sum - (l.map g).sum = (l.map (fun a => f a - g a)).sum := by
  induction l with
  | nil => simp
  | cons a l ih => simp [List.map_cons, List.sum_cons, ← ih]; ring

theorem abs_list_sum_le (l : List ℚ) : |l.sum| ≤ (l.map (fun a => |a|)).sum := by
  induction l with
  | nil => simp
  | cons a l ih =>
    rw [List.sum_cons, List.map_cons, List.sum_cons]
    exact le_trans (abs_add a l.sum) (by linarith)

theorem foldl_max_le_sum_go (l : List ℚ) :
    ∀ acc : ℚ, 0 ≤ acc → (∀ a ∈ l, 0 ≤ a) → l.foldl max acc ≤ acc + l.sum := by
  induction l with
  | nil => intro acc _ _; simp
  | cons a l ih =>
    intro acc hacc hl
    rw [List.foldl_cons, List.sum_cons]
    have ha : 0 ≤ a := hl a (by simp)
    have h1 : l.foldl max (max acc a) ≤ max acc a + l.sum :=
      ih (max acc a) (le_trans hacc (le_max_left acc a))
        (fun b hb => hl b (List.mem_cons_of_mem _ hb))
    have h2 : max acc a ≤ acc + a := max_le (by linarith) (by linarith)
    linarith

theorem foldl_max_le_sum (l : List ℚ) (h : ∀ a ∈ l, 0 ≤ a) :
    l.foldl max 0 ≤ l.sum := by
  have := foldl_max_le_sum_go l 0 le_rfl h
  linarith

theorem zip_abs_sub_sum (x : List ℚ) :
    ∀ y : List ℚ, x.length = y.length →
      ((List.zipWith (fun a b => a - b) x y).map (fun t => |t|)).sum =
        ∑ c ∈ Finset.range x.length, |x.getD c 0 - y.getD c 0| := by
  induction x with
  | nil => intro y h; simp
  | cons a x ih =>
    intro y h
    cases y with
    | nil => simp at h
    | cons b y =>
      rw [List.zipWith_cons_cons, List.map_cons, List.sum_cons,
        ih y (by simpa using h), List.length_cons, Finset.sum_range_succ']
      simp [add_comm]

theorem colWeightSum_cons (l : CompressedInLink) (ls : List CompressedInLink)
    (s : ℕ) : colWeightSum (l :: ls) s =
      (if l.fromIndex = s then l.weight else 0) + colWeightSum ls s := by
  by_cases h : l.fromIndex = s
  · simp [colWeightSum, List.filter_cons, h]
  · simp [colWeightSum, List.filter_cons, h]

theorem sum_map_weight_fiber (links : List CompressedInLink) (g : ℕ → ℚ)
    (size : ℕ) (hsrc : ∀ l ∈ links, l.fromIndex < size) :
    (links.map (fun l => g l.fromIndex * l.weight)).sum =
      ∑ s ∈ Finset.range size, g s * colWeightSum links s := by
  induction links with
  | nil => simp [colWeightSum]
  | cons l ls ih =>
    rw [List.map_cons, List.sum_cons,
      ih (fun q hq => hsrc q (List.mem_cons_of_mem _ hq))]
    have h1 : ∀ s ∈ Finset.range size, g s * colWeightSum (l :: ls) s =
        (if l.fromIndex = s then g s * l.weight else 0) + g s * colWeightSum ls s := by
      intro s _
      rw [colWeightSum_cons, mul_add]
      congr 1
      by_cases h : l.fromIndex = s
      · rw [if_pos h, if_pos h]
      · rw [if_neg h, if_neg h, mul_zero]
    rw [Finset.sum_congr rfl h1, Finset.sum_add_distrib, Finset.sum_ite_eq,
      if_pos (Finset.mem_range.mpr (hsrc l (List.mem_cons_self l ls)))]

theorem sum_slices {α : Type} (f : α → ℚ) :
    ∀ (counts : List ℕ) (flat : List α) (off : ℕ), off + counts.sum = flat.length →
      ((List.range counts.length).map (fun i =>
        ((sliceOf flat ((getLinksStartIndexGo off counts).1.getD i 0)
          (counts.getD i 0)).map f).sum)).sum = ((flat.drop off).map f).sum := by
  intro counts
  induction counts with
  | nil =>
    intro flat off h
    simp at h
    rw [List.drop_eq_nil_of_le (by omega)]
    simp
  | cons c cs ih =>
    intro flat off h
    rw [List.length_cons, List.range_succ_eq_map, List.map_cons, List.sum_cons,
      List.map_map]
    have h0 : (getLinksStartIndexGo off (c :: cs)).1.getD 0 0 = off := rfl
    have hterm0 : ((sliceOf flat ((getLinksStartIndexGo off (c :: cs)).1.getD 0 0)
        ((c :: cs).getD 0 0)).map f).sum = (((flat.drop off).take c).map f).sum := by
      rw [h0]
      rfl
    have hrest : (List.range cs.length).map ((fun i =>
        ((sliceOf flat ((getLinksStartIndexGo off (c :: cs)).1.getD i 0)
          ((c :: cs).getD i 0)).map f).sum) ∘ Nat.succ) =
        (List.range cs.length).map (fun i =>
          ((sliceOf flat ((getLinksStartIndexGo (off + c) cs).1.getD i 0)
            (cs.getD i 0)).map f).sum) := by
      refine List.map_congr_left ?_
      intro i _
      simp only [Function.comp_apply]
      rfl
    rw [hterm0, hrest, ih flat (off + c) (by rw [List.sum_cons] at h; omega)]
    have hdd : (flat.drop off).drop c = flat.drop (off + c) := by
      rw [List.drop_drop, Nat.add_comm]
    rw [show ((flat.drop off).map f) =
      (((flat.drop off).take c).map f) ++ (((flat.drop off).drop c).map f) from by
        rw [← List.map_append, List.take_append_drop]]
    rw [hdd, List.sum_append]

/- ------------------------------------------------------------------ -/
/- C8: termination machinery - iterates of the rank update            -/
/- ------------------------------------------------------------------ -/

theorem run_rank_iteration_length (inLinks : List CompressedInLink)
    (prev buf : List ℚ) (size : ℕ) (starts counts : List ℕ) (corr d : ℚ) :
    (run_rank_iteration inLinks prev buf size starts counts corr d).length = size := by
  simp [run_rank_iteration]

theorem run_rank_iteration_getD_ne (inLinks : List CompressedInLink)
    (prev buf : List ℚ) (size : ℕ) (starts counts : List ℕ) (corr d : ℚ)
    (c : ℕ) (hc : c < size) (h0 : counts.getD c 0 ≠ 0) :
    (run_rank_iteration inLinks prev buf size starts counts corr d).getD c 0 =
      ((sliceOf inLinks (starts.getD c 0) (counts.getD c 0)).map
        (fun l => prev.getD l.fromIndex 0 * l.weight)).sum * d + corr := by
  unfold run_rank_iteration
  rw [getD_map_range _ _ _ _ hc, if_neg h0, foldl_add_eq_sum, add_zero]

theorem run_rank_iteration_buf_congr (inLinks : List CompressedInLink)
    (r p q : List ℚ) (size : ℕ) (starts counts : List ℕ) (corr d : ℚ)
    (hbuf : ∀ c, c < size → counts.getD c 0 = 0 → p.getD c 0 = q.getD c 0) :
    run_rank_iteration inLinks r p size starts counts corr d =
      run_rank_iteration inLinks r q size starts counts corr d := by
  unfold run_rank_iteration
  refine List.map_congr_left ?_
  intro i hi
  rw [List.mem_range] at hi
  by_cases h : counts.getD i 0 = 0
  · rw [if_pos h, if_pos h, hbuf i hi h]
  · rw [if_neg h, if_neg h]

theorem iterG_dangling (inLinks : List CompressedInLink) (starts counts : List ℕ)
    (size : ℕ) (corr d : ℚ) (x : List ℚ) (c : ℕ) (hc : c < size)
    (h0 : counts.getD c 0 = 0) :
    ∀ k : ℕ, ((fun y => run_rank_iteration inLinks y y size starts counts corr d)^[k]
      x).getD c 0 = x.getD c 0 := by
  intro k
  induction k with
  | zero => simp
  | succ k ih =>
    rw [Function.iterate_succ_apply']
    rw [run_rank_iteration_skip _ _ _ _ _ _ _ _ c hc h0]
    exact ih

theorem iterG_length (inLinks : List CompressedInLink) (starts counts : List ℕ)
    (size : ℕ) (corr d : ℚ) (x : List ℚ) (hx : x.length = size) :
    ∀ k : ℕ, ((fun y => run_rank_iteration inLinks y y size starts counts corr d)^[k]
      x).length = size := by
  intro k
  induction k with
  | zero => simpa using hx
  | succ k _ =>
    rw [Function.iterate_succ_apply']
    exact run_rank_iteration_length ..

theorem loopBody_iterate (inLinks : List CompressedInLink) (starts counts : List ℕ)
    (size : ℕ) (corr d : ℚ) (x : List ℚ) :
    ∀ k : ℕ, (rankLoopBody inLinks starts counts size corr d)^[k + 1] (x, x) =
      ((fun y => run_rank_iteration inLinks y y size starts counts corr d)^[k] x,
       (fun y => run_rank_iteration inLinks y y size starts counts corr d)^[k + 1] x) := by
  intro k
  induction k with
  | zero => simp [rankLoopBody]
  | succ k ih =>
    rw [Function.iterate_succ_apply' _ (k + 1) ((x, x) : List ℚ × List ℚ), ih]
    unfold rankLoopBody
    refine Prod.ext rfl ?_
    rw [Function.iterate_succ_apply'
      (fun y => run_rank_iteration inLinks y y size starts counts corr d) (k + 1) x]
    exact run_rank_iteration_buf_congr inLinks _ _ _ size starts counts corr d
      (fun c hc h0 => by
        rw [iterG_dangling inLinks starts counts size corr d x c hc h0 k,
          iterG_dangling inLinks starts counts size corr d x c hc h0 (k + 1)])

theorem mem_sliceOf {α : Type} {l : α} {flat : List α} {s n : ℕ}
    (h : l ∈ sliceOf flat s n) : l ∈ flat :=
  List.mem_of_mem_drop (List.mem_of_mem_take h)

/-- One step of the rank update contracts the elementwise-absolute-difference
    sum by the damping factor, for any two iterates agreeing on the skipped
    (dangling) entries: the per-cid slices partition the compressed link list
    and each source's total emitted weight is at most one. -/
theorem l1_contraction (inLinks : List CompressedInLink) (starts counts : List ℕ)
    (size : ℕ) (corr d : ℚ)
    (hstarts : starts = (getLinksStartIndex counts).1)
    (hclen : counts.length = size) (hsum : counts.sum = inLinks.length)
    (hd0 : 0 ≤ d)
    (hw : ∀ l ∈ inLinks, 0 ≤ l.weight)
    (hsrc : ∀ l ∈ inLinks, l.fromIndex < size)
    (hcol : ∀ s, s < size → colWeightSum inLinks s ≤ 1)
    (x y : List ℚ)
    (hdang : ∀ c, c < size → counts.getD c 0 = 0 → x.getD c 0 = y.getD c 0) :
    ∑ c ∈ Finset.range size,
      |(run_rank_iteration inLinks x x size starts counts corr d).getD c 0 -
        (run_rank_iteration inLinks y y size starts counts corr d).getD c 0| ≤
      d * ∑ s ∈ Finset.range size, |x.getD s 0 - y.getD s 0| := by
  have hpoint : ∀ c ∈ Finset.range size,
      |(run_rank_iteration inLinks x x size starts counts corr d).getD c 0 -
        (run_rank_iteration inLinks y y size starts counts corr d).getD c 0| ≤
      d * ((sliceOf inLinks (starts.getD c 0) (counts.getD c 0)).map
        (fun l => |x.getD l.fromIndex 0 - y.getD l.fromIndex 0| * l.weight)).sum := by
    intro c hc
    rw [Finset.mem_range] at hc
    by_cases h0 : counts.getD c 0 = 0
    · rw [run_rank_iteration_skip _ _ _ _ _ _ _ _ c hc h0,
        run_rank_iteration_skip _ _ _ _ _ _ _ _ c hc h0,
        hdang c hc h0, sub_self, abs_zero, h0]
      rw [show sliceOf inLinks (starts.getD c 0) 0 = [] from rfl]
      simp
    · rw [run_rank_iteration_getD_ne _ _ _ _ _ _ _ _ c hc h0,
        run_rank_iteration_getD_ne _ _ _ _ _ _ _ _ c hc h0]
      rw [show ∀ a b q : ℚ, a * d + q - (b * d + q) = (a - b) * d from by
        intro a b q; ring]
      rw [abs_mul, abs_of_nonneg hd0, mul_comm]
      refine mul_le_mul_of_nonneg_left ?_ hd0
      rw [sum_map_sub]
      refine le_trans (abs_list_sum_le _) ?_
      rw [List.map_map]
      refine le_of_eq (congrArg List.sum (List.map_congr_left ?_))
      intro l hl
      simp only [Function.comp_apply]
      rw [← sub_mul, abs_mul,
        abs_of_nonneg (hw l (mem_sliceOf hl))]
  refine le_trans (Finset.sum_le_sum hpoint) ?_
  rw [← Finset.mul_sum]
  refine mul_le_mul_of_nonneg_left ?_ hd0
  have hpart : ∑ c ∈ Finset.range size,
      ((sliceOf inLinks (starts.getD c 0) (counts.getD c 0)).map
        (fun l => |x.getD l.fromIndex 0 - y.getD l.fromIndex 0| * l.weight)).sum =
      (inLinks.map
        (fun l => |x.getD l.fromIndex 0 - y.getD l.fromIndex 0| * l.weight)).sum := by
    have h := sum_slices
      (fun l => |x.getD l.fromIndex 0 - y.getD l.fromIndex 0| * l.weight)
      counts inLinks 0 (by omega)
    rw [hclen] at h
    rw [hstarts]
    rw [show (∑ c ∈ Finset.range size,
      ((sliceOf inLinks ((getLinksStartIndex counts).1.getD c 0)
        (counts.getD c 0)).map
        (fun l => |x.getD l.fromIndex 0 - y.getD l.fromIndex 0| * l.weight)).sum) =
      ((List.range size).map (fun c =>
        ((sliceOf inLinks ((getLinksStartIndexGo 0 counts).1.getD c 0)
          (counts.getD c 0)).map
          (fun l => |x.getD l.fromIndex 0 - y.getD l.fromIndex 0| * l.weight)).sum)).sum
      from rfl]
    rw [h, List.drop_zero]
  rw [hpart, sum_map_weight_fiber inLinks
    (fun s => |x.getD s 0 - y.getD s 0|) size hsrc]
  refine Finset.sum_le_sum ?_
  intro s hs
  rw [Finset.mem_range] at hs
  calc |x.getD s 0 - y.getD s 0| * colWeightSum inLinks s ≤
      |x.getD s 0 - y.getD s 0| * 1 :=
        mul_le_mul_of_nonneg_left (hcol s hs) (abs_nonneg _)
    _ = |x.getD s 0 - y.getD s 0| := mul_one _

/- ------------------------------------------------------------------ -/
/- C8: termination                                                    -/
/- ------------------------------------------------------------------ -/

theorem l1_decay (inLinks : List CompressedInLink) (starts counts : List ℕ)
    (size : ℕ) (corr d : ℚ)
    (hstarts : starts = (getLinksStartIndex counts).1)
    (hclen : counts.length = size) (hsum : counts.sum = inLinks.length)
    (hd0 : 0 ≤ d)
    (hw : ∀ l ∈ inLinks, 0 ≤ l.weight)
    (hsrc : ∀ l ∈ inLinks, l.fromIndex < size)
    (hcol : ∀ s, s < size → colWeightSum inLinks s ≤ 1)
    (x : List ℚ) :
    ∀ k : ℕ, ∑ s ∈ Finset.range size,
      |((fun y => run_rank_iteration inLinks y y size starts counts corr d)^[k]
          x).getD s 0 -
       ((fun y => run_rank_iteration inLinks y y size starts counts corr d)^[k + 1]
          x).getD s 0| ≤
      d ^ k * ∑ s ∈ Finset.range size,
        |x.getD s 0 -
         ((fun y => run_rank_iteration inLinks y y size starts counts corr d)^[1]
            x).getD s 0| := by
  intro k
  induction k with
  | zero => simp
  | succ k ih =>
    have hstep : ∑ s ∈ Finset.range size,
        |((fun y => run_rank_iteration inLinks y y size starts counts corr d)^[k + 1]
            x).getD s 0 -
         ((fun y => run_rank_iteration inLinks y y size starts counts corr d)^[k + 2]
            x).getD s 0| ≤
        d * ∑ s ∈ Finset.range size,
          |((fun y => run_rank_iteration inLinks y y size starts counts corr d)^[k]
              x).getD s 0 -
           ((fun y => run_rank_iteration inLinks y y size starts counts corr d)^[k + 1]
              x).getD s 0| := by
      have h1 := l1_contraction inLinks starts counts size corr d hstarts hclen hsum
        hd0 hw hsrc hcol
        ((fun y => run_rank_iteration inLinks y y size starts counts corr d)^[k] x)
        ((fun y => run_rank_iteration inLinks y y size starts counts corr d)^[k + 1] x)
        (fun c hc h0 => by
          rw [iterG_dangling inLinks starts counts size corr d x c hc h0 k,
            iterG_dangling inLinks starts counts size corr d x c hc h0 (k + 1)])
      rw [← Function.iterate_succ_apply'
        (fun y => run_rank_iteration inLinks y y size starts counts corr d) k x,
        ← Function.iterate_succ_apply'
        (fun y => run_rank_iteration inLinks y y size starts counts corr d) (k + 1) x]
        at h1
      exact h1
    refine le_trans hstep ?_
    rw [pow_succ, mul_comm (d ^ k) d, mul_assoc]
    exact mul_le_mul_of_nonneg_left ih hd0

theorem rankLoopGo_exits (inLinks : List CompressedInLink) (starts counts : List ℕ)
    (size : ℕ) (corr d tol : ℚ) :
    ∀ (f : ℕ) (st : List ℚ × List ℚ),
      (∃ j, j ≤ f ∧ find_max_ranks_diff
        (((rankLoopBody inLinks starts counts size corr d)^[j + 1]) st).1
        (((rankLoopBody inLinks starts counts size corr d)^[j + 1]) st).2 ≤ tol) →
      ∃ s, rankLoopGo inLinks starts counts size corr d tol (f + 1) st = some s := by
  intro f
  induction f with
  | zero =>
    intro st h
    obtain ⟨j, hj, hδ⟩ := h
    interval_cases j
    rw [Function.iterate_one] at hδ
    refine ⟨rankLoopBody inLinks starts counts size corr d st, ?_⟩
    have hstep : rankLoopGo inLinks starts counts size corr d tol 1 st =
        if tol < find_max_ranks_diff
            (rankLoopBody inLinks starts counts size corr d st).1
            (rankLoopBody inLinks starts counts size corr d st).2 then
          rankLoopGo inLinks starts counts size corr d tol 0
            (rankLoopBody inLinks starts counts size corr d st)
        else some (rankLoopBody inLinks starts counts size corr d st) := rfl
    rw [hstep, if_neg (not_lt.mpr hδ)]
  | succ f ih =>
    intro st h
    obtain ⟨j, hj, hδ⟩ := h
    have hstep : rankLoopGo inLinks starts counts size corr d tol (f + 2) st =
        if tol < find_max_ranks_diff
            (rankLoopBody inLinks starts counts size corr d st).1
            (rankLoopBody inLinks starts counts size corr d st).2 then
          rankLoopGo inLinks starts counts size corr d tol (f + 1)
            (rankLoopBody inLinks starts counts size corr d st)
        else some (rankLoopBody inLinks starts counts size corr d st) := rfl
    by_cases hlt : tol < find_max_ranks_diff
        (rankLoopBody inLinks starts counts size corr d st).1
        (rankLoopBody inLinks starts counts size corr d st).2
    · rw [hstep, if_pos hlt]
      cases j with
      | zero =>
        rw [Function.iterate_one] at hδ
        exact absurd hδ (not_le.mpr hlt)
      | succ j =>
        refine ih (rankLoopBody inLinks starts counts size corr d st) ⟨j, by omega, ?_⟩
        rw [← Function.iterate_succ_apply
          (rankLoopBody inLinks starts counts size corr d) (j + 1) st]
        exact hδ
    · rw [hstep, if_neg hlt]
      exact ⟨_, rfl⟩

/-- C8: for every compressed graph satisfying the valid-input conditions
    (start indexes are the prefix sums of the counts, the counts cover the
    link list, weights are nonnegative, sources are in range, and every
    source's total emitted weight is at most 1 - which holds whenever the two
    CSR views describe the same link multiset), any damping factor
    0 <= d < 1 and any tolerance > 0, the while loop of calculate_rank
    terminates: some finite fuel makes rankLoopGo return. -/
theorem c8_loop_terminates (inLinks : List CompressedInLink) (starts counts : List ℕ)
    (size : ℕ) (corr d tol : ℚ) (x : List ℚ)
    (hstarts : starts = (getLinksStartIndex counts).1)
    (hclen : counts.length = size) (hsum : counts.sum = inLinks.length)
    (hx : x.length = size)
    (hd0 : 0 ≤ d) (hd1 : d < 1) (htol : 0 < tol)
    (hw : ∀ l ∈ inLinks, 0 ≤ l.weight)
    (hsrc : ∀ l ∈ inLinks, l.fromIndex < size)
    (hcol : ∀ s, s < size → colWeightSum inLinks s ≤ 1) :
    ∃ fuel st, rankLoopGo inLinks starts counts size corr d tol fuel (x, x) =
      some st := by
  set G := fun y => run_rank_iteration inLinks y y size starts counts corr d with hG
  set Δ := ∑ s ∈ Finset.range size, |x.getD s 0 - (G^[1] x).getD s 0| with hΔdef
  have hΔ0 : 0 ≤ Δ := Finset.sum_nonneg (fun s _ => abs_nonneg _)
  obtain ⟨n, hn⟩ : ∃ n : ℕ, d ^ n * Δ ≤ tol := by
    rcases eq_or_lt_of_le hΔ0 with hz | hpos
    · exact ⟨0, by rw [← hz, mul_zero]; exact htol.le⟩
    · obtain ⟨n, hn⟩ := exists_pow_lt_of_lt_one (div_pos htol hpos) hd1
      exact ⟨n, le_of_lt ((lt_div_iff hpos).mp hn)⟩
  have hdecay := l1_decay inLinks starts counts size corr d hstarts hclen hsum hd0
    hw hsrc hcol x n
  have hmax : find_max_ranks_diff (G^[n] x) (G^[n + 1] x) ≤
      ∑ s ∈ Finset.range size, |(G^[n] x).getD s 0 - (G^[n + 1] x).getD s 0| := by
    have hlen1 : (G^[n] x).length = size :=
      iterG_length inLinks starts counts size corr d x hx n
    have hlen2 : (G^[n + 1] x).length = size :=
      iterG_length inLinks starts counts size corr d x hx (n + 1)
    unfold find_max_ranks_diff
    refine le_trans (foldl_max_le_sum _ (fun a ha => ?_)) ?_
    · rw [List.mem_map] at ha
      obtain ⟨t, _, rfl⟩ := ha
      exact abs_nonneg t
    · rw [zip_abs_sub_sum _ _ (by rw [hlen1, hlen2]), hlen1]
  have hfinal : find_max_ranks_diff
      (((rankLoopBody inLinks starts counts size corr d)^[n + 1]) (x, x)).1
      (((rankLoopBody inLinks starts counts size corr d)^[n + 1]) (x, x)).2 ≤ tol := by
    rw [loopBody_iterate inLinks starts counts size corr d x n]
    exact le_trans hmax (le_trans hdecay hn)
  obtain ⟨s, hs⟩ := rankLoopGo_exits inLinks starts counts size corr d tol n (x, x)
    ⟨n, le_rfl, hfinal⟩
  exact ⟨n + 1, s, hs⟩

/-- C8 witness: the compressed data of scenario S3 (one compressed link of
    weight 1 into cid 1, three cids, d = 1/2, tolerance 1/1000) satisfies all
    validity conditions and the loop terminates from the uniform start
    vector. -/
theorem c8_loop_terminates_witness :
    ([0, 1, 0] : List ℕ).sum = ([⟨0, 1⟩] : List CompressedInLink).length ∧
    (∀ s, s < 3 → colWeightSum [⟨0, 1⟩] s ≤ 1) ∧
    ∃ fuel st, rankLoopGo [⟨0, 1⟩] ((getLinksStartIndex [0, 1, 0]).1) [0, 1, 0] 3
      (2 / 9) (1 / 2) (1 / 1000) fuel
      ([1 / 6, 1 / 6, 1 / 6], [1 / 6, 1 / 6, 1 / 6]) = some st := by
  refine ⟨by decide, ?_, ?_⟩
  · intro s hs
    interval_cases s <;> norm_num [colWeightSum]
  · exact c8_loop_terminates [⟨0, 1⟩] ((getLinksStartIndex [0, 1, 0]).1) [0, 1, 0] 3
      (2 / 9) (1 / 2) (1 / 1000) [1 / 6, 1 / 6, 1 / 6] rfl (by decide) (by decide)
      (by decide) (by norm_num) (by norm_num) (by norm_num)
      (by intro l hl; rw [List.mem_singleton] at hl; rw [hl]; norm_num)
      (by intro l hl; rw [List.mem_singleton] at hl; rw [hl]; norm_num)
      (by intro s hs; interval_cases s <;> norm_num [colWeightSum])

end CyberRank
